import Mathlib

/-!
Verification development for the OCR-Service repository
(`app/services/llm_ocr_service.py`, `LLMOCRService.parse_fields`).

The repository keeps two behaviourally distinct revisions of
`parse_fields` under `src/.history/app/services/`:

* the latest revision, `llm_ocr_service_20251213020545.py`
  ("the latest revision" below): staged JSON recovery from the model
  reply, then a hardwired clean-up / regex fallback for the single key
  `"vergi_no"`, with no per-field coercion;
* revision `llm_ocr_service_20251212223536.py` ("revision 223536"
  below): the same staged recovery, followed by per-declared-field type
  coercion and an all-null-triggered fallback that fills the declared
  field(s) whose `name` contains `"vergi"` or `"tax"`.

Both are embedded here.  Python `dict`s parsed from JSON are modelled by
the mutually inductive `JVal`/`JElems`/`JMembers` types; `json.loads` is
modelled by a fueled recursive-descent parser (`parseVal`, `pyLoads`)
over `List Char`.  Character classes (`\d`, `\s`, `\w`) are modelled at
ASCII granularity; the Python classes also match some non-ASCII
characters, which none of the scrutinised inputs rely on (noted at each
definition).
-/

mutual
/-- A JSON value as produced by Python's `json.loads`.
`float` keeps the source lexeme of the number (mantissa-exact); the
only operations the embedded code performs on floats (`str`, truthiness,
`isinstance` checks) are modelled compatibly with this representation.
`obj` members are in insertion order with unique keys, exactly like a
Python `dict`. -/
inductive JVal where
  | null : JVal
  | bool (b : Bool) : JVal
  | int (n : Int) : JVal
  | float (lex : String) : JVal
  | str (s : String) : JVal
  | arr (elems : JElems) : JVal
  | obj (members : JMembers) : JVal

inductive JElems where
  | nil : JElems
  | cons (v : JVal) (rest : JElems) : JElems

inductive JMembers where
  | nil : JMembers
  | cons (k : String) (v : JVal) (rest : JMembers) : JMembers
end

namespace JMembers

/-- Python `dict` lookup (`d.get(k)` / `k in d`): keys are unique, so the
first match is the match. -/
def lookup : JMembers → String → Option JVal
  | .nil, _ => none
  | .cons k v r, key => if k = key then some v else r.lookup key

/-- Python `d[key] = x`: replace in place when the key exists (keeping
its position), append otherwise. -/
def setKey : JMembers → String → JVal → JMembers
  | .nil, key, x => .cons key x .nil
  | .cons k v r, key, x =>
      if k = key then .cons k x r else .cons k v (r.setKey key x)

/-- The keys, in order. -/
def keys : JMembers → List String
  | .nil => []
  | .cons k _ r => k :: r.keys

/-- `len(d)`. -/
def size : JMembers → Nat
  | .nil => 0
  | .cons _ _ r => 1 + r.size

end JMembers

namespace JElems

/-- `len(l)`. -/
def size : JElems → Nat
  | .nil => 0
  | .cons _ r => 1 + r.size

/-- Python `"key" in l` for a list `l`: `==` against each element; a
string compares equal only to an equal string. -/
def hasStr (key : String) : JElems → Bool
  | .nil => false
  | .cons (.str s) r => s = key || hasStr key r
  | .cons _ r => hasStr key r

end JElems

/-- Build a Python `dict` from parsed `(key, value)` pairs: a duplicate
key keeps its first position but takes the last value, as in
`json.loads`. -/
def dictFold (ms : JMembers) : JMembers :=
  go .nil ms
where
  go (acc : JMembers) : JMembers → JMembers
    | .nil => acc
    | .cons k v r => go (acc.setKey k v) r

/- ### Character classes

ASCII models of Python's regex classes and of JSON lexical classes.
Python's (unicode) classes additionally match some non-ASCII characters;
the inputs this development evaluates contain non-ASCII characters only
in positions where the distinction is immaterial. -/

/-- JSON whitespace (`json.loads` skips exactly these). -/
def jsonWs (c : Char) : Bool :=
  c = ' ' || c = '\t' || c = '\n' || c = '\r'

/-- Python `\s` / `str.strip()` whitespace (ASCII part). -/
def isPyWs (c : Char) : Bool :=
  c = ' ' || c = '\t' || c = '\n' || c = '\r' ||
  c = Char.ofNat 11 || c = Char.ofNat 12

/-- Python `\d` (ASCII part). -/
def isDig (c : Char) : Bool := c.isDigit

/-- Python `\w` (ASCII part): letters, digits, underscore. -/
def isWordChar (c : Char) : Bool := c.isAlphanum || c = '_'

/-- `str.lower()` on one character (ASCII model). -/
def pyLowerChar (c : Char) : Char :=
  if 'A' ≤ c && c ≤ 'Z' then Char.ofNat (c.toNat + 32) else c

/-- `str.lower()` (ASCII model; the strings it is applied to here are
the declared type and display names). -/
def pyLower (s : String) : String := String.mk (s.data.map pyLowerChar)

/-- Drop leading JSON whitespace. -/
def skipWs : List Char → List Char
  | [] => []
  | c :: cs => if jsonWs c then skipWs cs else c :: cs

/-- `str.strip()` on a character list (ASCII whitespace model). -/
def pyStripL (l : List Char) : List Char :=
  ((l.dropWhile isPyWs).reverse.dropWhile isPyWs).reverse

/-- Decimal value of a digit list (most significant first). -/
def digitsVal (l : List Char) : Nat :=
  l.foldl (fun a c => 10 * a + (c.toNat - 48)) 0

/-- Python `int(s)` for a decimal string: surrounding whitespace is
ignored, an optional single sign is allowed, and the remainder must be
one or more digits.  (Python additionally allows `_` separators between
digits; no string reaching `int()` in the embedded code can contain
one, since they all arise from `\d`/`\s` regex matches.) -/
def pyIntList (l : List Char) : Option Int :=
  let t := pyStripL l
  match t with
  | [] => none
  | c :: ds =>
      if c = '-' then
        if ds ≠ [] && ds.all isDig then some (-(digitsVal ds : Int)) else none
      else if c = '+' then
        if ds ≠ [] && ds.all isDig then some (digitsVal ds : Int) else none
      else if (c :: ds).all isDig then some (digitsVal (c :: ds) : Int) else none

/-- Decimal digits of a natural number; the fuel argument (any bound
above the number of digits) keeps the recursion structural. -/
def natDigitsAux : Nat → Nat → List Char
  | 0, _ => []
  | f + 1, n =>
      if n < 10 then [Char.ofNat (48 + n)]
      else natDigitsAux f (n / 10) ++ [Char.ofNat (48 + n % 10)]

/-- Decimal digits of a natural number, most significant first. -/
def natDigits (n : Nat) : List Char := natDigitsAux (n + 1) n

/-- `str(n)` / `json.dumps(n)` for an integer. -/
def intRepr (n : Int) : List Char :=
  if n < 0 then '-' :: natDigits n.natAbs else natDigits n.toNat

/-- Does `l` contain `pat` as a contiguous substring (Python `in`)? -/
def containsSub (pat : List Char) : List Char → Bool
  | [] => pat.isEmpty
  | c :: cs => pat.isPrefixOf (c :: cs) || containsSub pat cs

/- ### A model of `json.loads`

A fueled recursive-descent parser over `List Char`, following the JSON
grammar exactly as Python's `json` module accepts it (strict mode):
no trailing data (checked in `pyLoads`), no control characters inside
strings, `0`-or-`[1-9]digits` integer parts, `.digits` fractions and
`[eE][+-]?digits` exponents, the standard escape set plus `\uXXXX`. -/

/-- Map a JSON escape character to the character it denotes (the
non-`\u` escapes). -/
def escChar (c : Char) : Option Char :=
  if c = '"' then some '"'
  else if c = '\\' then some '\\'
  else if c = '/' then some '/'
  else if c = 'b' then some (Char.ofNat 8)
  else if c = 'f' then some (Char.ofNat 12)
  else if c = 'n' then some '\n'
  else if c = 'r' then some '\r'
  else if c = 't' then some '\t'
  else none

/-- Value of a hexadecimal digit. -/
def hexVal (c : Char) : Option Nat :=
  if c.isDigit then some (c.toNat - 48)
  else if 'a' ≤ c && c ≤ 'f' then some (c.toNat - 87)
  else if 'A' ≤ c && c ≤ 'F' then some (c.toNat - 55)
  else none

/-- Decode one escape sequence (the backslash already consumed),
returning the decoded character and the remaining input.  A lone
`\uXXXX` escape outside the scalar range decodes to `Char.ofNat`'s
default; surrogate-pair recombination is not modelled (no scrutinised
input contains such an escape). -/
def parseEsc : List Char → Option (Char × List Char)
  | 'u' :: h1 :: h2 :: h3 :: h4 :: r =>
      match hexVal h1, hexVal h2, hexVal h3, hexVal h4 with
      | some a, some b, some c, some d =>
          some (Char.ofNat (((a * 16 + b) * 16 + c) * 16 + d), r)
      | _, _, _, _ => none
  | e :: r =>
      match escChar e with
      | some c => some (c, r)
      | none => none
  | [] => none

/-- Parse the body of a JSON string literal (the opening quote already
consumed); returns the decoded characters and the input after the
closing quote.  Each step consumes at least one character, so any fuel
above the input length is enough. -/
def parseStrL : Nat → List Char → Option (List Char × List Char)
  | 0, _ => none
  | _ + 1, [] => none
  | fuel + 1, c :: cs =>
      if c = '"' then some ([], cs)
      else if c = '\\' then
        match parseEsc cs with
        | some (c2, r) => (parseStrL fuel r).map (fun p => (c2 :: p.1, p.2))
        | none => none
      else if c.toNat < 32 then none
      else (parseStrL fuel cs).map (fun p => (c :: p.1, p.2))

/-- The fraction part `(\.\d+)?` of a JSON number starting at the
current position (empty when absent). -/
def fracOf : List Char → List Char
  | c :: d :: t =>
      if c = '.' && d.isDigit then '.' :: ((d :: t).takeWhile Char.isDigit) else []
  | _ => []

/-- The exponent part `([eE][+-]?\d+)?` starting at the current
position (empty when absent). -/
def expOf : List Char → List Char
  | [] => []
  | e :: rest =>
      if e = 'e' || e = 'E' then
        let signPart : List Char :=
          match rest.head? with
          | some c => if c = '+' || c = '-' then [c] else []
          | none => []
        let ds := (rest.drop signPart.length).takeWhile Char.isDigit
        if ds.isEmpty then [] else e :: signPart ++ ds
      else []

/-- Parse a JSON number starting at the current position (no leading
whitespace).  Follows the scanner regex
`(-?(?:0|[1-9]\d*))(\.\d+)?([eE][-+]?\d+)?`: an integer yields
`JVal.int`, a number with a fraction or exponent yields `JVal.float`
carrying its lexeme. -/
def parseNumber (cs : List Char) : Option (JVal × List Char) :=
  let sign : Bool := decide (cs.head? = some '-')
  let cs1 := if sign then cs.tail else cs
  match cs1 with
  | [] => none
  | c :: _ =>
    if !c.isDigit then none
    else
      let intPart := if c = '0' then ['0'] else cs1.takeWhile Char.isDigit
      let rest1 := cs1.drop intPart.length
      let fracPart := fracOf rest1
      let rest2 := rest1.drop fracPart.length
      let expPart := expOf rest2
      let rest3 := rest2.drop expPart.length
      if fracPart.isEmpty && expPart.isEmpty then
        let v : Int := if sign then -(digitsVal intPart : Int) else (digitsVal intPart : Int)
        some (.int v, rest1)
      else
        let lex := (if sign then ['-'] else []) ++ intPart ++ fracPart ++ expPart
        some (.float (String.mk lex), rest3)

mutual
/-- Parse one JSON value (leading whitespace allowed), returning the
value and the unconsumed input. -/
def parseVal : Nat → List Char → Option (JVal × List Char)
  | 0, _ => none
  | fuel + 1, cs =>
      match skipWs cs with
      | [] => none
      | c :: rest =>
          if c = '{' then
            let r2 := skipWs rest
            if r2.head? = some '}' then some (.obj .nil, r2.tail)
            else (parseMembers fuel r2).map (fun p => (.obj (dictFold p.1), p.2))
          else if c = '[' then
            let r2 := skipWs rest
            if r2.head? = some ']' then some (.arr .nil, r2.tail)
            else (parseElems fuel r2).map (fun p => (.arr p.1, p.2))
          else if c = '"' then
            (parseStrL (rest.length + 1) rest).map (fun p => (.str (String.mk p.1), p.2))
          else if c = 't' then
            match rest with
            | 'r' :: 'u' :: 'e' :: r => some (.bool true, r)
            | _ => none
          else if c = 'f' then
            match rest with
            | 'a' :: 'l' :: 's' :: 'e' :: r => some (.bool false, r)
            | _ => none
          else if c = 'n' then
            match rest with
            | 'u' :: 'l' :: 'l' :: r => some (.null, r)
            | _ => none
          else parseNumber (c :: rest)

/-- Parse the members of a JSON object after its `{` (at least one
member; the empty object is handled in `parseVal`), consuming the
closing `}`. -/
def parseMembers : Nat → List Char → Option (JMembers × List Char)
  | 0, _ => none
  | fuel + 1, cs =>
      match skipWs cs with
      | '"' :: cs1 =>
          match parseStrL (cs1.length + 1) cs1 with
          | none => none
          | some (key, cs2) =>
              match skipWs cs2 with
              | ':' :: cs3 =>
                  match parseVal fuel cs3 with
                  | none => none
                  | some (v, cs4) =>
                      match skipWs cs4 with
                      | ',' :: cs5 =>
                          (parseMembers fuel cs5).map
                            (fun p => (.cons (String.mk key) v p.1, p.2))
                      | '}' :: cs5 => some (.cons (String.mk key) v .nil, cs5)
                      | _ => none
              | _ => none
      | _ => none

/-- Parse the elements of a JSON array after its `[` (at least one
element), consuming the closing `]`. -/
def parseElems : Nat → List Char → Option (JElems × List Char)
  | 0, _ => none
  | fuel + 1, cs =>
      match parseVal fuel cs with
      | none => none
      | some (v, cs1) =>
          match skipWs cs1 with
          | ',' :: cs2 => (parseElems fuel cs2).map (fun p => (.cons v p.1, p.2))
          | ']' :: cs2 => some (.cons v .nil, cs2)
          | _ => none
end

/-- `json.loads(s)`: parse one value and require only whitespace after
it ("Extra data" otherwise).  `none` models any `json.JSONDecodeError`.
The fuel `2 * length + 4` over-approximates the parser's needs (each
two fuel steps consume at least one character). -/
def pyLoads (s : String) : Option JVal :=
  match parseVal (2 * s.length + 4) s.data with
  | some (v, rest) => if skipWs rest = [] then some v else none
  | none => none

/- ### Python runtime helpers used by `parse_fields` -/

/-- The Python type name of a parsed JSON value (for error messages). -/
def typeName : JVal → String
  | .null => "NoneType"
  | .bool _ => "bool"
  | .int _ => "int"
  | .float _ => "float"
  | .str _ => "str"
  | .arr _ => "list"
  | .obj _ => "dict"

mutual
/-- Python `repr()` of a parsed JSON value (used through `str()` on
containers).  Floats keep their JSON lexeme rather than Python's
normalised rendering; both always contain a non-digit, so every use
here (feeding `int()`, which then fails) is unaffected. -/
def pyRepr : JVal → List Char
  | .null => "None".data
  | .bool true => "True".data
  | .bool false => "False".data
  | .int n => intRepr n
  | .float lex => lex.data
  | .str s => '\'' :: s.data ++ ['\'']
  | .arr e => '[' :: pyReprE e ++ [']']
  | .obj m => '{' :: pyReprM m ++ ['}']

def pyReprE : JElems → List Char
  | .nil => []
  | .cons v .nil => pyRepr v
  | .cons v r => pyRepr v ++ ',' :: ' ' :: pyReprE r

def pyReprM : JMembers → List Char
  | .nil => []
  | .cons k v .nil => '\'' :: k.data ++ '\'' :: ':' :: ' ' :: pyRepr v
  | .cons k v r => '\'' :: k.data ++ '\'' :: ':' :: ' ' :: pyRepr v ++ ',' :: ' ' :: pyReprM r
end

/-- Python `str()` of a parsed JSON value. -/
def pyStr : JVal → List Char
  | .str s => s.data
  | v => pyRepr v

/-- Is the mantissa of a float lexeme all zeros (Python float
truthiness for JSON-parsed floats)? -/
def floatLexZero (lex : String) : Bool :=
  (lex.data.takeWhile (fun c => !(c = 'e' || c = 'E'))).all
    (fun c => !c.isDigit || c = '0')

/-- Python truthiness of a parsed JSON value. -/
def pyTruthy : JVal → Bool
  | .null => false
  | .bool b => b
  | .int n => !(n = 0)
  | .float lex => !(floatLexZero lex)
  | .str s => !(s = "")
  | .arr .nil => false
  | .arr _ => true
  | .obj .nil => false
  | .obj _ => true

/-- Python `len()`; a `TypeError` for unsized values. -/
def pyLen : JVal → Except String Nat
  | .str s => .ok s.length
  | .arr e => .ok e.size
  | .obj m => .ok m.size
  | v => .error ("object of type '" ++ typeName v ++ "' has no len()")

/-- Python `key in v` for a string key: dict key membership, substring
test on a string, `==`-membership on a list, `TypeError` otherwise. -/
def pyInKey (key : String) (v : JVal) : Except String Bool :=
  match v with
  | .obj m => .ok (m.lookup key).isSome
  | .str s => .ok (containsSub key.data s.data)
  | .arr e => .ok (e.hasStr key)
  | other => .error ("argument of type '" ++ typeName other ++ "' is not iterable")

/-- Python `v[key]` for a string key. -/
def pySubscriptStr (key : String) (v : JVal) : Except String JVal :=
  match v with
  | .obj m =>
      match m.lookup key with
      | some x => .ok x
      | none => .error ("'" ++ key ++ "'")
  | .str _ => .error "string indices must be integers"
  | .arr _ => .error "list indices must be integers or slices, not str"
  | other => .error ("'" ++ typeName other ++ "' object is not subscriptable")

/-- Python `v[0]`. -/
def pySubscriptZero (v : JVal) : Except String JVal :=
  match v with
  | .arr (.cons x _) => .ok x
  | .arr .nil => .error "list index out of range"
  | .str s =>
      match s.data with
      | c :: _ => .ok (.str (String.mk [c]))
      | [] => .error "string index out of range"
  | .obj _ => .error "KeyError: 0"
  | other => .error ("'" ++ typeName other ++ "' object is not subscriptable")

/-- Python `v.get("response", "")`: only a dict has `.get`
(`AttributeError` otherwise). -/
def pyGetResponse (v : JVal) : Except String JVal :=
  match v with
  | .obj m => .ok ((m.lookup "response").getD (.str ""))
  | other => .error ("'" ++ typeName other ++ "' object has no attribute 'get'")

/- ### Regex models -/

/-- `re.search(r"\{.*\}", text, re.DOTALL)`: with a greedy `.*` under
DOTALL this matches, when it matches at all, exactly the substring from
the leftmost `{` that has some `}` after it, through the last `}` of the
text.  Returns that substring. -/
def braceSpan (l : List Char) : Option (List Char) :=
  let r := l.dropWhile (fun c => !(c = '{'))
  let c := (r.reverse.dropWhile (fun c => !(c = '}'))).reverse
  if c.isEmpty then none else some c

/-- Word-character test of an optional character (out-of-range counts
as non-word, as at string edges for `\b`). -/
def wordness : Option Char → Bool
  | none => false
  | some c => isWordChar c

/-- Is there a `\b` boundary between adjacent positions holding `prev`
and `next`? -/
def atBoundary (prev next : Option Char) : Bool :=
  wordness prev != wordness next

/-- Backtracking step for `\b(\d[\d\s]{9,})\b` at a fixed start: `c` is
the leading digit, `run` the maximal following `[\d\s]` run, `after`
the input past the run.  Try extension lengths from `kk` down to 9
(greedy with backtracking) and return the first group whose end sits on
a word boundary. -/
def pickK (c : Char) (run after : List Char) : Nat → Option (List Char)
  | 0 => none
  | kk + 1 =>
      if kk + 1 < 9 then none
      else
        let ext := run.take (kk + 1)
        let nxt : Option Char := ((run.drop (kk + 1)) ++ after).head?
        match ext.getLast? with
        | some lastc =>
            if atBoundary (some lastc) nxt then some (c :: ext)
            else pickK c run after kk
        | none => none

/-- Leftmost-first scan for `re.search(r"\b(\d[\d\s]{9,})\b", s)`:
`prev` is the character before the current position. -/
def searchVergiAux (prev : Option Char) : List Char → Option (List Char)
  | [] => none
  | c :: rest =>
      let here : Option (List Char) :=
        if atBoundary prev (some c) && isDig c then
          let run := rest.takeWhile (fun x => isDig x || isPyWs x)
          pickK c run (rest.drop run.length) run.length
        else none
      match here with
      | some g => some g
      | none => searchVergiAux (some c) rest

/-- `re.search(r"\b(\d[\d\s]{9,})\b", s)`, returning group 1. -/
def searchVergi (s : List Char) : Option (List Char) :=
  searchVergiAux none s

/-- First match of `re.findall(r"\d{11}", s)` (the code only uses
`tax_matches[0]`, and the first non-overlapping match is the leftmost
11-digit window). -/
def first11 : Nat → List Char → Option (List Char)
  | 0, _ => none
  | _ + 1, [] => none
  | f + 1, c :: rest =>
      let w := c :: rest.take 10
      if w.length = 11 && w.all isDig then some w else first11 f rest

/- ### The latest revision (`llm_ocr_service_20251213020545.py`) -/

/-- The declared field set: key → configuration dict (with `"type"` and
`"name"` entries), insertion-ordered, keys unique. -/
abbrev FieldSpecSet := List (String × List (String × String))

/-- The outcome of the single `httpx` POST to `{api_url}/api/generate`:
either the transport layer raised (connection error or timeout expiry,
with `str(e)` as the message), or a response arrived with some HTTP
status code and body text.  `httpx` does not raise on non-success
status codes unless asked to. -/
inductive HttpResult where
  | transportError (msg : String)
  | success (status : Nat) (body : String)

/-- Staged JSON recovery of the latest revision: direct `json.loads`,
then `re.search(r"\{.*\}", text, re.DOTALL)` and a parse of its match,
with `{}` as the final fallback.  Both inner failures are caught. -/
def recoverLatest (s : String) : JVal :=
  match pyLoads s with
  | some v => v
  | none =>
      match braceSpan s.data with
      | some sub => (pyLoads (String.mk sub)).getD (.obj .nil)
      | none => .obj .nil

/-- The latest revision's clean-up of a truthy `vergi_no` value:
`int(str(v).replace(" ", "").strip())`, with `ValueError`/
`AttributeError` degrading to `None`.  (`pyIntList` already ignores
surrounding whitespace, as `int()` does, so the `.strip()` is folded
into it.) -/
def vergiClean (v : JVal) : JVal :=
  match pyIntList ((pyStr v).filter (fun c => !(c = ' '))) with
  | some n => .int n
  | none => .null

/-- The latest revision's regex fallback for `vergi_no`: search the raw
document text for `\b(\d[\d\s]{9,})\b` and run
`int(group.replace(" ", ""))` on the match — note that only the space
character is removed, while the group may contain any `\s` character,
and this `int()` call sits outside any local handler.  (The error
message embeds the offending string directly; Python's actual message
renders it through `repr`, which would escape a tab as two
characters.) -/
def vergiFallback (kvs : JMembers) (raw : String) : Except String JMembers :=
  match searchVergi raw.data with
  | some grp =>
      let cleaned := grp.filter (fun c => !(c = ' '))
      match pyIntList cleaned with
      | some n => .ok (kvs.setKey "vergi_no" (.int n))
      | none =>
          .error ("invalid literal for int() with base 10: '" ++ String.mk cleaned ++ "'")
  | none => .ok (kvs.setKey "vergi_no" .null)

/-- The latest revision's post-processing of the recovered value: the
`vergi_no` clean-up / fallback block.  A non-dict recovery result makes
the `"vergi_no" in result` test or the `result["vergi_no"]`
access/assignment raise a `TypeError` (uncaught locally); for a list
the read and the assignment raise the same message, so the membership
test's outcome is immaterial. -/
def processAfterRecover (result : JVal) (raw : String) : Except String JMembers :=
  match result with
  | .obj kvs =>
      match kvs.lookup "vergi_no" with
      | some v =>
          if pyTruthy v then .ok (kvs.setKey "vergi_no" (vergiClean v))
          else vergiFallback kvs raw
      | none => vergiFallback kvs raw
  | .str s =>
      if containsSub "vergi_no".data s.data then .error "string indices must be integers"
      else .error "'str' object does not support item assignment"
  | .arr _ => .error "list indices must be integers or slices, not str"
  | other => .error ("argument of type '" ++ typeName other ++ "' is not iterable")

/-- The latest revision's handling of the extracted reply value:
`json.loads` on a non-string raises a `TypeError` that the stage-1
catch absorbs, after which `re.search` on the non-string raises an
uncaught `TypeError`. -/
def processReplyLatest (rt : JVal) (raw : String) : Except String JMembers :=
  match rt with
  | .str s => processAfterRecover (recoverLatest s) raw
  | other =>
      .error ("expected string or bytes-like object, got '" ++ typeName other ++ "'")

/-- The latest revision's reply extraction from the response envelope:
`"response" in json` → `json["response"]`; else
`"data" in json and len(json["data"]) > 0` →
`json["data"][0].get("response", "")`; else `""`.  Any `TypeError` /
`KeyError` raised along the way propagates to the enclosing handler. -/
def extractReplyLatest (env : JVal) : Except String JVal :=
  match pyInKey "response" env with
  | .error e => .error e
  | .ok true => pySubscriptStr "response" env
  | .ok false =>
      match pyInKey "data" env with
      | .error e => .error e
      | .ok false => .ok (.str "")
      | .ok true =>
          match pySubscriptStr "data" env with
          | .error e => .error e
          | .ok dataV =>
              match pyLen dataV with
              | .error e => .error e
              | .ok n =>
                  if n > 0 then
                    match pySubscriptZero dataV with
                    | .error e => .error e
                    | .ok first => pyGetResponse first
                  else .ok (.str "")

/-- Stand-in message for a `json.JSONDecodeError` on the response body
(the real message also reports the error position). -/
def jsonDecodeMsg : String := "Expecting value: line 1 column 1 (char 0)"

/-- `LLMOCRService.parse_fields` of the latest revision
(`llm_ocr_service_20251213020545.py`), as a function of the HTTP
outcome, the raw document text and the declared field set.  The
declared fields feed only the prompt (hence only the HTTP request),
never the result; the HTTP status code is never consulted.  The
enclosing `try`/`except` wraps every failure as
`"Ollama API error: " + str(e)`. -/
def parseFieldsLatest (http : HttpResult) (raw_text : String)
    (fields : FieldSpecSet) : Except String JMembers :=
  let core : Except String JMembers :=
    match http with
    | .transportError msg => .error msg
    | .success _ body =>
        match pyLoads body with
        | none => .error jsonDecodeMsg
        | some env =>
            match extractReplyLatest env with
            | .error e => .error e
            | .ok rt => processReplyLatest rt raw_text
  core.mapError (fun m => "Ollama API error: " ++ m)

/- ### Revision 223536 (`llm_ocr_service_20251212223536.py`) -/

/-- Revision 223536's staged recovery: `result_text.strip()`, `{}` when
empty, direct `json.loads`, then the substring from the first `{` to
the last `}`.  Its stage 3 (`re.search(r"\{[\s\S]*\}")`) re-parses
exactly the same substring, so a stage-2 parse failure always falls
through to `{}`; the two stages are collapsed here. -/
def recover223536 (result_text : String) : JVal :=
  let t := String.mk (pyStripL result_text.data)
  if t = "" then .obj .nil
  else
    match pyLoads t with
    | some v => v
    | none =>
        match braceSpan t.data with
        | some sub => (pyLoads (String.mk sub)).getD (.obj .nil)
        | none => .obj .nil

/-- Revision 223536's per-field coercion of one non-`None` value, given
the declared type string (the code lowercases it before comparing):
integers (and booleans, since `isinstance(True, int)` holds) pass
through for an `"integer"` field; a string is stripped, its non-digits
removed, and the digit remainder parsed (`None` when empty); everything
else becomes `None`.  Non-`"integer"` fields strip strings and pass
other values through unchanged. -/
def coerceOne (expectedType : String) (rv : JVal) : JVal :=
  if pyLower expectedType = "integer" then
    match rv with
    | .int n => .int n
    | .bool b => .bool b
    | .str s =>
        let digits := (pyStripL s.data).filter isDig
        if digits.isEmpty then .null
        else
          match pyIntList digits with
          | some n => .int n
          | none => .null
    | _ => .null
  else
    match rv with
    | .str s => .str (String.mk (pyStripL s.data))
    | v => v

/-- `result.get(key) if isinstance(result, dict) else None`. -/
def lookupResult (result : JVal) (key : String) : Option JVal :=
  match result with
  | .obj m => m.lookup key
  | _ => none

/-- Revision 223536's treatment of one declared field: an absent or
`None` value stays `None`, anything else is coerced per the declared
type (`expected.get("type", "")`). -/
def coerceEntry (result : JVal) (key : String) (conf : List (String × String)) : JVal :=
  match lookupResult result key with
  | none => .null
  | some .null => .null
  | some x => coerceOne ((conf.lookup "type").getD "") x

/-- Revision 223536's coercion loop: one output entry per declared
field, in declaration order; a non-dict recovery result and an absent
or `null` member both coerce to `None`. -/
def coerce223536 (result : JVal) : FieldSpecSet → JMembers
  | [] => .nil
  | (key, conf) :: restF =>
      .cons key (coerceEntry result key conf) (coerce223536 result restF)

/-- Are all values of the record `None`
(`all(v is None for v in processed.values())`)? -/
def allNullJM : JMembers → Bool
  | .nil => true
  | .cons _ v r => (match v with | .null => true | _ => false) && allNullJM r

/-- Does a field configuration's `name` (lowercased) contain `"vergi"`
or `"tax"`? -/
def keywordField (conf : List (String × String)) : Bool :=
  let name := pyLower ((conf.lookup "name").getD "")
  containsSub "vergi".data name.data || containsSub "tax".data name.data

/-- Revision 223536's fallback assignment loop
(`for key, conf in fields.items(): if "vergi" in name or "tax" in name:
processed[key] = ...`): since `processed` holds exactly the declared
keys (unique in a dict), this is a value replacement at the
keyword-matching keys. -/
def mapKeyword (fields : FieldSpecSet) (fv : JVal) : JMembers → JMembers
  | .nil => .nil
  | .cons k v r =>
      let isKw :=
        match fields.lookup k with
        | some conf => keywordField conf
        | none => false
      .cons k (if isKw then fv else v) (mapKeyword fields fv r)

/-- Revision 223536's fallback: remove all whitespace from the raw
document text, find the leftmost 11-digit window (`re.findall(r"\d{11}")`
first match), and write it — `int`-parsed, with the digit string itself
as the (unreachable) exception fallback — into every keyword-matching
declared field.  Without a match the record is returned unchanged. -/
def fb223536 (processed : JMembers) (raw : String) (fields : FieldSpecSet) : JMembers :=
  let compact := raw.data.filter (fun c => !(isPyWs c))
  match first11 compact.length compact with
  | some m0 =>
      let fv : JVal :=
        match pyIntList m0 with
        | some n => .int n
        | none => .str (String.mk m0)
      mapKeyword fields fv processed
  | none => processed

/-- `LLMOCRService.parse_fields` of revision 223536, from the reply
string down (its reply-envelope handling is the `.get("response", "")`
of the same response object): staged recovery, per-field coercion, and
the all-null-triggered fallback.  This part of the revision raises
nothing, so it is a total function. -/
def processReply223536 (raw : String) (fields : FieldSpecSet) (reply : String) : JMembers :=
  let result := recover223536 reply
  let processed := coerce223536 result fields
  if allNullJM processed then fb223536 processed raw fields else processed

/- ### Canonical serialization, used to quantify over JSON objects

`dumpsV` is the canonical JSON rendering of a value (`json.dumps` with
its default `", "`/`": "` separators), meaningful for the well-formed
values delimited by `wfVal`: no floats, strings without quotes,
backslashes or control characters (so no escaping is needed), and
objects with pairwise distinct keys. -/

mutual
/-- Canonical JSON rendering of a value. -/
def dumpsV : JVal → List Char
  | .null => 'n' :: 'u' :: 'l' :: 'l' :: []
  | .bool true => 't' :: 'r' :: 'u' :: 'e' :: []
  | .bool false => 'f' :: 'a' :: 'l' :: 's' :: 'e' :: []
  | .int n => intRepr n
  | .float lex => lex.data
  | .str s => '"' :: s.data ++ ['"']
  | .arr e => '[' :: dumpsE e ++ [']']
  | .obj m => '{' :: dumpsM m ++ ['}']

/-- Canonical rendering of an element list, without the brackets. -/
def dumpsE : JElems → List Char
  | .nil => []
  | .cons v .nil => dumpsV v
  | .cons v r => dumpsV v ++ ',' :: ' ' :: dumpsE r

/-- Canonical rendering of a member list, without the braces. -/
def dumpsM : JMembers → List Char
  | .nil => []
  | .cons k v .nil => '"' :: k.data ++ '"' :: ':' :: ' ' :: dumpsV v
  | .cons k v r =>
      '"' :: k.data ++ '"' :: ':' :: ' ' :: dumpsV v ++ ',' :: ' ' :: dumpsM r
end

/-- A string needing no JSON escaping: no quote, no backslash, no
control character. -/
def wfStr (s : String) : Bool :=
  s.data.all (fun c => !(c = '"') && !(c = '\\') && !(c.toNat < 32))

/-- Key uniqueness of a member list (the `dict` invariant). -/
def nodupKeys : JMembers → Bool
  | .nil => true
  | .cons k _ r => !(r.keys.contains k) && nodupKeys r

mutual
/-- Well-formed values: those whose canonical rendering `dumpsV`
re-parses to the value itself (no floats, escape-free strings, unique
object keys). -/
def wfVal : JVal → Bool
  | .null => true
  | .bool _ => true
  | .int _ => true
  | .float _ => false
  | .str s => wfStr s
  | .arr e => wfElems e
  | .obj m => nodupKeys m && wfMembers m

def wfElems : JElems → Bool
  | .nil => true
  | .cons v r => wfVal v && wfElems r

def wfMembers : JMembers → Bool
  | .nil => true
  | .cons k v r => wfStr k && wfVal v && wfMembers r
end

mutual
/-- Fuel needed by `parseVal` on the canonical rendering of a value. -/
def needV : JVal → Nat
  | .arr e => 1 + needE e
  | .obj m => 1 + needM m
  | _ => 1

def needE : JElems → Nat
  | .nil => 0
  | .cons v r => 1 + needV v + needE r

def needM : JMembers → Nat
  | .nil => 0
  | .cons _ v r => 1 + needV v + needM r
end

/-- A character that would extend a preceding number lexeme. -/
def numExtender (c : Char) : Bool :=
  c.isDigit || c = '.' || c = 'e' || c = 'E'

/-- May this input directly follow a number lexeme without extending
it? -/
def restOk : List Char → Bool
  | [] => true
  | c :: _ => !(numExtender c)

/-- May `rest` directly follow the canonical rendering of `v` without
changing how the rendering parses?  Only numbers are delimiter-free,
so only they constrain the next character. -/
def followsOk : JVal → List Char → Bool
  | .int _, rest => restOk rest
  | .float _, rest => restOk rest
  | _, _ => true

/-- `JMembers` concatenation (for the `dictFold` characterisation). -/
def jmApp : JMembers → JMembers → JMembers
  | .nil, t => t
  | .cons k v r, t => .cons k v (jmApp r t)

/-- The hypotheses of a simultaneous induction over `JVal`, `JElems`
and `JMembers`, bundled. -/
structure JInducHyp (mv : JVal → Prop) (me : JElems → Prop) (mm : JMembers → Prop) : Prop where
  hnull : mv .null
  hbool : ∀ b, mv (.bool b)
  hintc : ∀ n, mv (.int n)
  hfloat : ∀ l, mv (.float l)
  hstr : ∀ s, mv (.str s)
  harr : ∀ e, me e → mv (.arr e)
  hobj : ∀ m, mm m → mv (.obj m)
  henil : me .nil
  hecons : ∀ v r, mv v → me r → me (.cons v r)
  hmnil : mm .nil
  hmcons : ∀ k v r, mv v → mm r → mm (.cons k v r)

/- ### Basic lemmas -/

theorem skipWs_cons_neg {c : Char} (h : jsonWs c = false) (l : List Char) :
    skipWs (c :: l) = c :: l := by
  simp [skipWs, h]

theorem skipWs_cons_pos {c : Char} (h : jsonWs c = true) (l : List Char) :
    skipWs (c :: l) = skipWs l := by
  simp [skipWs, h]

theorem takeWhile_append_all {p : Char → Bool} :
    ∀ {l : List Char}, l.all p = true →
      ∀ r, (l ++ r).takeWhile p = l ++ r.takeWhile p := by
  intro l
  induction l with
  | nil => intro _ r; rfl
  | cons c t ih =>
      intro h r
      simp only [List.all_cons, Bool.and_eq_true] at h
      simp [List.takeWhile, h.1, ih h.2 r]

theorem takeWhile_cons_neg {p : Char → Bool} {c : Char} (h : p c = false)
    (l : List Char) : (c :: l).takeWhile p = [] := by
  simp [List.takeWhile, h]

theorem dropWhile_cons_neg {p : Char → Bool} {c : Char} (h : p c = false)
    (l : List Char) : (c :: l).dropWhile p = c :: l := by
  simp [List.dropWhile, h]

theorem dropWhile_append_all {p : Char → Bool} :
    ∀ {l : List Char}, l.all p = true →
      ∀ r, (l ++ r).dropWhile p = r.dropWhile p := by
  intro l
  induction l with
  | nil => intro _ r; rfl
  | cons c t ih =>
      intro h r
      simp only [List.all_cons, Bool.and_eq_true] at h
      simp [List.dropWhile, h.1, ih h.2 r]

theorem digitsVal_append_one (l : List Char) (c : Char) :
    digitsVal (l ++ [c]) = 10 * digitsVal l + (c.toNat - 48) := by
  simp [digitsVal, List.foldl_append]

/-- A digit differs from every non-digit character. -/
theorem digit_ne_of {c d : Char} (h : c.isDigit = true) (hd : d.isDigit = false) :
    c ≠ d := by
  intro heq; rw [heq, hd] at h; exact Bool.noConfusion h

/-- A digit is none of the parser's dispatch characters and is not
whitespace. -/
theorem digit_facts {c : Char} (h : c.isDigit = true) :
    c ≠ '{' ∧ c ≠ '[' ∧ c ≠ '"' ∧ c ≠ 't' ∧ c ≠ 'f' ∧ c ≠ 'n' ∧
      c ≠ '-' ∧ c ≠ '+' ∧ c ≠ '.' ∧ jsonWs c = false ∧ isPyWs c = false := by
  have hne : ∀ d : Char, d.isDigit = false → c ≠ d := fun _ hd => digit_ne_of h hd
  refine ⟨hne _ (by decide), hne _ (by decide), hne _ (by decide), hne _ (by decide),
    hne _ (by decide), hne _ (by decide), hne _ (by decide), hne _ (by decide),
    hne _ (by decide), ?_, ?_⟩
  · cases hj : jsonWs c with
    | false => rfl
    | true =>
        exfalso
        simp only [jsonWs, Bool.or_eq_true, decide_eq_true_eq] at hj
        rcases hj with ((h1 | h1) | h1) | h1 <;> exact hne _ (by decide) h1
  · cases hj : isPyWs c with
    | false => rfl
    | true =>
        exfalso
        simp only [isPyWs, Bool.or_eq_true, decide_eq_true_eq] at hj
        rcases hj with ((((h1 | h1) | h1) | h1) | h1) | h1 <;> exact hne _ (by decide) h1

theorem charDigit_isDigit {n : Nat} (h : n < 10) :
    (Char.ofNat (48 + n)).isDigit = true := by
  interval_cases n <;> decide

theorem charDigit_toNat {n : Nat} (h : n < 10) :
    (Char.ofNat (48 + n)).toNat = 48 + n := by
  interval_cases n <;> decide

theorem charDigit_ne_zero {n : Nat} (h : n < 10) (h0 : 0 < n) :
    Char.ofNat (48 + n) ≠ '0' := by
  interval_cases n <;> decide

/-- The decimal digit printer is correct: all digits, nonempty, value
round-trips, and no leading zero for a positive number. -/
theorem natDigitsAux_spec :
    ∀ f n, n < f →
      (natDigitsAux f n).all Char.isDigit = true ∧
      natDigitsAux f n ≠ [] ∧
      digitsVal (natDigitsAux f n) = n ∧
      (0 < n → (natDigitsAux f n).head? ≠ some '0') := by
  intro f
  induction f with
  | zero => intro n h; omega
  | succ f ih =>
      intro n h
      by_cases h10 : n < 10
      · simp only [natDigitsAux, if_pos h10]
        refine ⟨?_, by simp, ?_, ?_⟩
        · simp [charDigit_isDigit h10]
        · simp [digitsVal, charDigit_toNat h10]
        · intro h0
          simp [charDigit_ne_zero h10 h0]
      · have hdlt : n / 10 < n := Nat.div_lt_self (by omega) (by norm_num)
        have hd : n / 10 < f := by omega
        simp only [natDigitsAux, if_neg h10]
        obtain ⟨ha, hne, hv, hh⟩ := ih (n / 10) hd
        have hm : n % 10 < 10 := Nat.mod_lt _ (by norm_num)
        refine ⟨?_, by simp, ?_, ?_⟩
        · simp [List.all_append, ha, charDigit_isDigit hm]
        · rw [digitsVal_append_one, hv, charDigit_toNat hm]
          omega
        · intro _
          have h0 : 0 < n / 10 := Nat.div_pos (by omega) (by norm_num)
          cases hnd : natDigitsAux f (n / 10) with
          | nil => exact absurd hnd hne
          | cons a t =>
              have ha0 := hh h0
              rw [hnd] at ha0
              simp only [List.head?_cons] at ha0 ⊢
              simp only [List.cons_append, List.head?_cons]
              intro hcon
              exact ha0 hcon

theorem natDigits_spec (n : Nat) :
    (natDigits n).all Char.isDigit = true ∧ natDigits n ≠ [] ∧
      digitsVal (natDigits n) = n ∧
      (0 < n → (natDigits n).head? ≠ some '0') :=
  natDigitsAux_spec (n + 1) n (Nat.lt_succ_self n)

/-- Well-formed string contents parse back to themselves, leaving the
input after the closing quote. -/
theorem parseStrL_round :
    ∀ (s : List Char),
      s.all (fun c => !(c = '"') && !(c = '\\') && !(c.toNat < 32)) = true →
      ∀ fuel r, s.length < fuel → parseStrL fuel (s ++ '"' :: r) = some (s, r) := by
  intro s
  induction s with
  | nil =>
      intro _ fuel r hf
      obtain ⟨g, rfl⟩ : ∃ g, fuel = g + 1 := ⟨fuel - 1, by omega⟩
      rfl
  | cons c t ih =>
      intro h fuel r hf
      simp only [List.all_cons, Bool.and_eq_true, Bool.not_eq_true',
        decide_eq_false_iff_not] at h
      obtain ⟨⟨⟨h1, h2⟩, h3⟩, h4⟩ := h
      obtain ⟨g, rfl⟩ : ∃ g, fuel = g + 1 := ⟨fuel - 1, by omega⟩
      rw [List.cons_append]
      simp only [parseStrL, if_neg h1, if_neg h2, if_neg h3,
        ih h4 g r (by simpa using Nat.lt_of_succ_lt_succ hf), Option.map_some']

theorem takeWhile_cons_pos {p : Char → Bool} {c : Char} (h : p c = true)
    (l : List Char) : (c :: l).takeWhile p = c :: l.takeWhile p := by
  simp [List.takeWhile, h]

theorem fracOf_not_dot {c : Char} (h : c ≠ '.') : ∀ l, fracOf (c :: l) = [] := by
  intro l
  cases l with
  | nil => rfl
  | cons d t => simp [fracOf, h]

theorem expOf_not_e {c : Char} (h1 : c ≠ 'e') (h2 : c ≠ 'E') (l : List Char) :
    expOf (c :: l) = [] := by
  simp [expOf, h1, h2]

/-- Consequences of `restOk` for the characters a number lexeme looks
at next. -/
theorem restOk_facts {c : Char} {l : List Char} (h : restOk (c :: l) = true) :
    c.isDigit = false ∧ c ≠ '.' ∧ c ≠ 'e' ∧ c ≠ 'E' := by
  simp only [restOk, numExtender, Bool.not_eq_true', Bool.or_eq_false_iff,
    decide_eq_false_iff_not] at h
  exact ⟨h.1.1.1, h.1.1.2, h.1.2, h.2⟩

theorem fracOf_restOk {rest : List Char} (h : restOk rest = true) :
    fracOf rest = [] := by
  cases rest with
  | nil => rfl
  | cons c l => exact fracOf_not_dot (restOk_facts h).2.1 l

theorem expOf_restOk {rest : List Char} (h : restOk rest = true) :
    expOf rest = [] := by
  cases rest with
  | nil => rfl
  | cons c l => exact expOf_not_e (restOk_facts h).2.2.1 (restOk_facts h).2.2.2 l

theorem takeWhile_restOk {rest : List Char} (h : restOk rest = true) :
    rest.takeWhile Char.isDigit = [] := by
  cases rest with
  | nil => rfl
  | cons c l => exact takeWhile_cons_neg (restOk_facts h).1 l

/-- An all-digit, leading-zero-free lexeme parses as the corresponding
integer when followed by a non-extending character. -/
theorem parseNumber_digits (ds rest : List Char) (hne : ds ≠ [])
    (hall : ds.all Char.isDigit = true)
    (hlead : ds = ['0'] ∨ ds.head? ≠ some '0')
    (hrest : restOk rest = true) :
    parseNumber (ds ++ rest) = some (.int (digitsVal ds), rest) := by
  cases ds with
  | nil => exact absurd rfl hne
  | cons c t =>
      simp only [List.all_cons, Bool.and_eq_true] at hall
      obtain ⟨hc, ht⟩ := hall
      have hcne : ¬ (c = '-') := (digit_facts hc).2.2.2.2.2.2.1
      have hint : (if c = '0' then ['0']
          else List.takeWhile Char.isDigit (c :: (t ++ rest))) = c :: t := by
        rcases hlead with h0 | h0
        · obtain ⟨rfl, rfl⟩ : c = '0' ∧ t = [] := by
            refine ⟨List.head_eq_of_cons_eq h0, List.tail_eq_of_cons_eq h0⟩
          simp
        · have hc0 : c ≠ '0' := by
            intro heq; exact h0 (by simp [heq])
          rw [if_neg hc0, takeWhile_cons_pos hc,
            takeWhile_append_all ht rest, takeWhile_restOk hrest,
            List.append_nil]
      have hdrop : List.drop (c :: t).length (c :: (t ++ rest)) = rest := by
        rw [← List.cons_append]; exact List.drop_left _ _
      have hlen : (c :: t).length = (if c = '0' then ['0']
          else List.takeWhile Char.isDigit (c :: (t ++ rest))).length := by
        rw [hint]
      simp only [parseNumber, List.cons_append, List.head?_cons, Option.some.injEq,
        hcne, decide_False, Bool.false_eq_true, if_false, hc, Bool.not_true,
        hint, ← hlen, hdrop, fracOf_restOk hrest, expOf_restOk hrest,
        List.isEmpty_nil, Bool.and_self, if_true, List.drop_nil, List.drop_zero]
      simp [expOf_restOk hrest]

/-- The canonical integer lexeme parses back to the integer. -/
theorem parseNumber_intRepr (n : Int) (rest : List Char) (hrest : restOk rest = true) :
    parseNumber (intRepr n ++ rest) = some (.int n, rest) := by
  by_cases hn : n < 0
  · obtain ⟨hall, hne, hval, hlead⟩ := natDigits_spec n.natAbs
    have habs : 0 < n.natAbs := by omega
    rw [intRepr, if_pos hn, List.cons_append]
    cases hd : natDigits n.natAbs with
    | nil => exact absurd hd hne
    | cons c t =>
        rw [hd] at hall hval hlead
        simp only [List.all_cons, Bool.and_eq_true] at hall
        obtain ⟨hc, ht⟩ := hall
        have h0' := hlead habs
        have hc0 : c ≠ '0' := by
          intro heq; exact h0' (by simp [heq])
        have hint : (if c = '0' then ['0']
            else List.takeWhile Char.isDigit (c :: (t ++ rest))) = c :: t := by
          rw [if_neg hc0, takeWhile_cons_pos hc,
            takeWhile_append_all ht rest, takeWhile_restOk hrest,
            List.append_nil]
        have hdrop : List.drop (c :: t).length (c :: (t ++ rest)) = rest := by
          rw [← List.cons_append]; exact List.drop_left _ _
        have hlen : (c :: t).length = (if c = '0' then ['0']
            else List.takeWhile Char.isDigit (c :: (t ++ rest))).length := by
          rw [hint]
        simp only [parseNumber, List.cons_append, List.head?_cons, Option.some.injEq,
          decide_True, if_true, List.tail_cons, hc, Bool.not_true,
          Bool.false_eq_true, if_false, hint, ← hlen, hdrop,
          fracOf_restOk hrest, expOf_restOk hrest,
          List.isEmpty_nil, Bool.and_self]
        simp only [expOf_restOk hrest, List.length_nil, List.drop_zero,
          List.isEmpty_nil, Bool.and_self, if_true, hval]
        have hsg : (-(n.natAbs : Int)) = n := by omega
        rw [hsg]
  · rw [intRepr, if_neg hn]
    obtain ⟨hall, hne, hval, hlead⟩ := natDigits_spec n.toNat
    have := parseNumber_digits (natDigits n.toNat) rest hne hall ?_ hrest
    · rw [this, hval]
      have hsg : ((n.toNat : Int)) = n := by omega
      rw [hsg]
    · by_cases h0 : n.toNat = 0
      · left; rw [h0]; decide
      · right; exact hlead (by omega)

/- ### Induction principles for the mutual JSON types -/

theorem jmInduc {motive : JMembers → Prop} (h0 : motive .nil)
    (h1 : ∀ k v r, motive r → motive (.cons k v r)) : ∀ m, motive m
  | .nil => h0
  | .cons k v r => h1 k v r (jmInduc h0 h1 r)

theorem jeInduc {motive : JElems → Prop} (h0 : motive .nil)
    (h1 : ∀ v r, motive r → motive (.cons v r)) : ∀ e, motive e
  | .nil => h0
  | .cons v r => h1 v r (jeInduc h0 h1 r)

mutual

theorem mutualInducV {mv : JVal → Prop} {me : JElems → Prop} {mm : JMembers → Prop}
    (h : JInducHyp mv me mm) : ∀ v, mv v
  | .null => h.hnull
  | .bool b => h.hbool b
  | .int n => h.hintc n
  | .float l => h.hfloat l
  | .str s => h.hstr s
  | .arr e => h.harr e (mutualInducE h e)
  | .obj m => h.hobj m (mutualInducM h m)

theorem mutualInducE {mv : JVal → Prop} {me : JElems → Prop} {mm : JMembers → Prop}
    (h : JInducHyp mv me mm) : ∀ e, me e
  | .nil => h.henil
  | .cons v r => h.hecons v r (mutualInducV h v) (mutualInducE h r)

theorem mutualInducM {mv : JVal → Prop} {me : JElems → Prop} {mm : JMembers → Prop}
    (h : JInducHyp mv me mm) : ∀ m, mm m
  | .nil => h.hmnil
  | .cons k v r => h.hmcons k v r (mutualInducV h v) (mutualInducM h r)

end

/- ### `dictFold` is the identity on duplicate-free member lists -/

theorem jmApp_nil (a : JMembers) : jmApp a .nil = a := by
  induction a using jmInduc with
  | h0 => rfl
  | h1 k v r ih => simp [jmApp, ih]

theorem jmApp_assoc (a b c : JMembers) :
    jmApp (jmApp a b) c = jmApp a (jmApp b c) := by
  induction a using jmInduc with
  | h0 => rfl
  | h1 k v r ih => simp [jmApp, ih]

theorem keys_jmApp (a b : JMembers) :
    (jmApp a b).keys = a.keys ++ b.keys := by
  induction a using jmInduc with
  | h0 => rfl
  | h1 k v r ih => simp [jmApp, JMembers.keys, ih]

theorem keys_contains_iff (l : List String) (k : String) :
    l.contains k = true ↔ k ∈ l := List.elem_iff

theorem contains_false_iff (l : List String) (k : String) :
    l.contains k = false ↔ k ∉ l := by
  constructor
  · intro hc hm
    rw [(keys_contains_iff _ _).2 hm] at hc
    exact Bool.noConfusion hc
  · intro hm
    cases hc : l.contains k with
    | false => rfl
    | true => exact absurd ((keys_contains_iff _ _).1 hc) hm

theorem setKey_fresh {acc : JMembers} {k : String}
    (h : acc.keys.contains k = false) (v : JVal) :
    acc.setKey k v = jmApp acc (.cons k v .nil) := by
  induction acc using jmInduc with
  | h0 => rfl
  | h1 k2 v2 r ih =>
      have h' : ¬ (k ∈ (k2 :: r.keys)) := (contains_false_iff _ _).1 h
      have hk2 : k2 ≠ k := fun he => h' (by simp [he])
      have hr : r.keys.contains k = false := by
        cases hc : r.keys.contains k with
        | false => rfl
        | true => exact absurd ((keys_contains_iff _ _).1 hc) (fun hm => h' (by simp [hm]))
      simp [JMembers.setKey, hk2, jmApp, ih hr]

theorem dictFold_go_nodup (ms : JMembers) :
    ∀ (acc : JMembers), nodupKeys ms = true →
      (∀ k, ms.keys.contains k = true → acc.keys.contains k = false) →
      dictFold.go acc ms = jmApp acc ms := by
  induction ms using jmInduc with
  | h0 => intro acc _ _; exact (jmApp_nil acc).symm
  | h1 k v r ih =>
      intro acc hnd hdis
      simp only [nodupKeys, Bool.and_eq_true, Bool.not_eq_true'] at hnd
      obtain ⟨hkr, hnd⟩ := hnd
      have hacc : acc.keys.contains k = false := by
        refine hdis k ?_
        exact (keys_contains_iff _ _).2 (by simp [JMembers.keys])
      rw [dictFold.go, setKey_fresh hacc v, ih _ hnd ?_, jmApp_assoc]
      · rfl
      · intro k2 hk2
        have hk2m : k2 ∈ r.keys := (keys_contains_iff _ _).1 hk2
        have h1 : acc.keys.contains k2 = false := by
          refine hdis k2 ?_
          exact (keys_contains_iff _ _).2 (by simp [JMembers.keys, hk2m])
        have hkne : k ≠ k2 := by
          intro he; rw [he] at hkr; rw [hk2] at hkr
          exact Bool.noConfusion hkr
        cases hc : (jmApp acc (JMembers.cons k v .nil)).keys.contains k2 with
        | false => rfl
        | true =>
            exfalso
            have := (keys_contains_iff _ _).1 hc
            rw [keys_jmApp] at this
            rcases List.mem_append.1 this with hm | hm
            · have hx := (keys_contains_iff _ _).2 hm
              rw [h1] at hx
              exact Bool.noConfusion hx
            · simp [JMembers.keys] at hm
              exact hkne hm.symm

/-- `json.loads` building a dict from duplicate-free parsed pairs keeps
them unchanged. -/
theorem dictFold_nodup {ms : JMembers} (h : nodupKeys ms = true) :
    dictFold ms = ms := by
  rw [dictFold, dictFold_go_nodup ms .nil h (fun k _ => rfl)]
  rfl

/- ### Heads of canonical renderings -/

theorem needV_pos (v : JVal) : 1 ≤ needV v := by
  cases v <;> simp [needV]

theorem followsOk_of_head {c : Char} (h : numExtender c = false) (v : JVal)
    (r : List Char) : followsOk v (c :: r) = true := by
  cases v <;> simp [followsOk, restOk, h]

theorem natDigits_head :
    ∃ c t, natDigits (n : Nat) = c :: t ∧ c.isDigit = true := by
  obtain ⟨hall, hne, _, _⟩ := natDigits_spec n
  cases hd : natDigits n with
  | nil => exact absurd hd hne
  | cons c t =>
      rw [hd] at hall
      simp only [List.all_cons, Bool.and_eq_true] at hall
      exact ⟨c, t, rfl, hall.1⟩

/-- The canonical rendering of a well-formed value starts with a
character that is not whitespace and is not a closing delimiter. -/
theorem dumps_head (v : JVal) (h : wfVal v = true) :
    ∃ c t, dumpsV v = c :: t ∧ jsonWs c = false ∧ c ≠ '}' ∧ c ≠ ']' := by
  cases v with
  | null => exact ⟨'n', _, rfl, by decide, by decide, by decide⟩
  | bool b =>
      cases b with
      | false => exact ⟨'f', _, rfl, by decide, by decide, by decide⟩
      | true => exact ⟨'t', _, rfl, by decide, by decide, by decide⟩
  | int n =>
      by_cases hn : n < 0
      · refine ⟨'-', natDigits n.natAbs, ?_, by decide, by decide, by decide⟩
        simp [dumpsV, intRepr, if_pos hn]
      · obtain ⟨c, t, hd, hc⟩ := natDigits_head (n := n.toNat)
        refine ⟨c, t, ?_, (digit_facts hc).2.2.2.2.2.2.2.2.2.1,
          digit_ne_of hc (by decide), digit_ne_of hc (by decide)⟩
        simp [dumpsV, intRepr, if_neg hn, hd]
  | float lex => exact absurd h (by simp [wfVal])
  | str s => exact ⟨'"', _, rfl, by decide, by decide, by decide⟩
  | arr e => exact ⟨'[', _, rfl, by decide, by decide, by decide⟩
  | obj m => exact ⟨'{', _, rfl, by decide, by decide, by decide⟩

theorem parseVal_skip {c : Char} (h : jsonWs c = true) (f : Nat) (l : List Char) :
    parseVal f (c :: l) = parseVal f l := by
  cases f with
  | zero => rfl
  | succ g => simp only [parseVal, skipWs_cons_pos h]

theorem parseMembers_skip {c : Char} (h : jsonWs c = true) (f : Nat) (l : List Char) :
    parseMembers f (c :: l) = parseMembers f l := by
  cases f with
  | zero => rfl
  | succ g => simp only [parseMembers, skipWs_cons_pos h]

theorem parseVal_to_parseNumber {c : Char} (hws : jsonWs c = false)
    (h1 : c ≠ '{') (h2 : c ≠ '[') (h3 : c ≠ '"') (h4 : c ≠ 't') (h5 : c ≠ 'f')
    (h6 : c ≠ 'n') (f : Nat) (l : List Char) :
    parseVal (f + 1) (c :: l) = parseNumber (c :: l) := by
  simp only [parseVal, skipWs_cons_neg hws, if_neg h1, if_neg h2, if_neg h3,
    if_neg h4, if_neg h5, if_neg h6]

theorem numHead_facts {c : Char} (h : c = '-' ∨ c.isDigit = true) :
    jsonWs c = false ∧ c ≠ '{' ∧ c ≠ '[' ∧ c ≠ '"' ∧ c ≠ 't' ∧ c ≠ 'f' ∧ c ≠ 'n' := by
  rcases h with rfl | hd
  · exact ⟨by decide, by decide, by decide, by decide, by decide, by decide, by decide⟩
  · obtain ⟨a1, a2, a3, a4, a5, a6, _, _, _, a10, _⟩ := digit_facts hd
    exact ⟨a10, a1, a2, a3, a4, a5, a6⟩

theorem intRepr_head (n : Int) :
    ∃ c t, intRepr n = c :: t ∧ (c = '-' ∨ c.isDigit = true) := by
  by_cases hn : n < 0
  · exact ⟨'-', natDigits n.natAbs, by simp [intRepr, if_pos hn], Or.inl rfl⟩
  · obtain ⟨c, t, hd, hc⟩ := natDigits_head (n := n.toNat)
    exact ⟨c, t, by simp [intRepr, if_neg hn, hd], Or.inr hc⟩

theorem dumpsM_head (k : String) (v : JVal) (m : JMembers) :
    ∃ t, dumpsM (.cons k v m) = '"' :: t := by
  cases m with
  | nil => exact ⟨_, rfl⟩
  | cons k2 v2 m2 => exact ⟨_, rfl⟩

theorem parseVal_obj_branch {c : Char} (hws : jsonWs c = false) (hne : c ≠ '}')
    (f : Nat) (t : List Char) :
    parseVal (f + 1) ('{' :: (c :: t)) =
      (parseMembers f (c :: t)).map (fun p => (JVal.obj (dictFold p.1), p.2)) := by
  have h1 : skipWs ('{' :: c :: t) = '{' :: c :: t := skipWs_cons_neg (by decide) _
  have h2 : skipWs (c :: t) = c :: t := skipWs_cons_neg hws _
  simp [parseVal, h1, h2, hne]

theorem parseVal_arr_branch {c : Char} (hws : jsonWs c = false) (hne : c ≠ ']')
    (f : Nat) (t : List Char) :
    parseVal (f + 1) ('[' :: (c :: t)) =
      (parseElems f (c :: t)).map (fun p => (JVal.arr p.1, p.2)) := by
  have h1 : skipWs ('[' :: c :: t) = '[' :: c :: t := skipWs_cons_neg (by decide) _
  have h2 : skipWs (c :: t) = c :: t := skipWs_cons_neg hws _
  simp [parseVal, h1, h2, hne]

/-- Canonical renderings of well-formed values parse back to the value,
leaving exactly the appended input, given enough fuel; similarly for
nonempty member lists and element lists followed by their closing
delimiter. -/
theorem parseRound :
    ∀ fuel : Nat,
      (∀ v rest, wfVal v = true → followsOk v rest = true → needV v ≤ fuel →
        parseVal fuel (dumpsV v ++ rest) = some (v, rest)) ∧
      (∀ k v m rest, wfStr k = true → wfVal v = true → wfMembers m = true →
        needM (.cons k v m) ≤ fuel →
        parseMembers fuel (dumpsM (.cons k v m) ++ '}' :: rest) = some (.cons k v m, rest)) ∧
      (∀ v e rest, wfVal v = true → wfElems e = true → needE (.cons v e) ≤ fuel →
        parseElems fuel (dumpsE (.cons v e) ++ ']' :: rest) = some (.cons v e, rest)) := by
  intro fuel
  induction fuel using Nat.strong_induction_on with
  | _ fuel IH =>
  refine ⟨?_, ?_, ?_⟩
  · intro v rest hwf hfo hneed
    obtain ⟨f, rfl⟩ : ∃ f, fuel = f + 1 := ⟨fuel - 1, by have := needV_pos v; omega⟩
    cases v with
    | null => rfl
    | bool b => cases b <;> rfl
    | float lex => exact absurd hwf (by simp [wfVal])
    | int n =>
        have hro : restOk rest = true := hfo
        obtain ⟨c, t, hd, hcase⟩ := intRepr_head n
        obtain ⟨w0, w1, w2, w3, w4, w5, w6⟩ := numHead_facts hcase
        have hdd : dumpsV (.int n) = intRepr n := rfl
        rw [hdd, hd, List.cons_append,
          parseVal_to_parseNumber w0 w1 w2 w3 w4 w5 w6 f (t ++ rest),
          ← List.cons_append, ← hd]
        exact parseNumber_intRepr n rest hro
    | str s =>
        have hws : wfStr s = true := hwf
        have hshape : dumpsV (.str s) ++ rest = '"' :: (s.data ++ '"' :: rest) := by
          show ('"' :: s.data ++ ['"']) ++ rest = _
          simp [List.cons_append, List.append_assoc]
        rw [hshape]
        have hred : parseVal (f + 1) ('"' :: (s.data ++ '"' :: rest)) =
            (parseStrL ((s.data ++ '"' :: rest).length + 1) (s.data ++ '"' :: rest)).map
              (fun p => (JVal.str (String.mk p.1), p.2)) := rfl
        rw [hred, parseStrL_round s.data hws _ rest
          (by simp only [List.length_append, List.length_cons]; omega)]
        rfl
    | arr e =>
        revert hwf hfo hneed
        cases e with
        | nil => intro _ _ _; rfl
        | cons v2 e2 =>
            intro hwf hfo hneed
            have hwf2 : wfVal v2 = true ∧ wfElems e2 = true := by
              have hx : wfElems (.cons v2 e2) = true := hwf
              simpa [wfElems, Bool.and_eq_true] using hx
            have hshape : dumpsV (.arr (.cons v2 e2)) ++ rest =
                '[' :: (dumpsE (.cons v2 e2) ++ ']' :: rest) := by
              show ('[' :: dumpsE (.cons v2 e2) ++ [']']) ++ rest = _
              simp [List.cons_append, List.append_assoc]
            rw [hshape]
            obtain ⟨c, t, hd, hws2, hne3, hne4⟩ := dumps_head v2 hwf2.1
            have hdE : ∃ t2, dumpsE (.cons v2 e2) = c :: t2 := by
              cases e2 with
              | nil => exact ⟨t, by simp [dumpsE, hd]⟩
              | cons a b =>
                  exact ⟨t ++ ',' :: ' ' :: dumpsE (.cons a b), by simp [dumpsE, hd]⟩
            obtain ⟨t2, hd2⟩ := hdE
            have hsh2 : dumpsE (.cons v2 e2) ++ ']' :: rest = c :: (t2 ++ ']' :: rest) := by
              rw [hd2, List.cons_append]
            rw [hsh2, parseVal_arr_branch hws2 hne4 f _, ← hsh2,
              (IH f (by omega)).2.2 v2 e2 rest hwf2.1 hwf2.2
                (by simp only [needV] at hneed; omega)]
            rfl
    | obj m =>
        revert hwf hfo hneed
        cases m with
        | nil => intro _ _ _; rfl
        | cons k2 v2 m2 =>
            intro hwf hfo hneed
            have hx : wfVal (.obj (.cons k2 v2 m2)) = true := hwf
            simp only [wfVal, wfMembers, Bool.and_eq_true] at hx
            obtain ⟨hnd, ⟨hk2, hv2⟩, hm2⟩ := hx
            obtain ⟨tm, hdm⟩ := dumpsM_head k2 v2 m2
            have hshape : dumpsV (.obj (.cons k2 v2 m2)) ++ rest =
                '{' :: (dumpsM (.cons k2 v2 m2) ++ '}' :: rest) := by
              show ('{' :: dumpsM (.cons k2 v2 m2) ++ ['}']) ++ rest = _
              simp [List.cons_append, List.append_assoc]
            rw [hshape]
            have hsh2 : dumpsM (.cons k2 v2 m2) ++ '}' :: rest = '"' :: (tm ++ '}' :: rest) := by
              rw [hdm, List.cons_append]
            rw [hsh2, parseVal_obj_branch (by decide) (by decide) f _, ← hsh2,
              (IH f (by omega)).2.1 k2 v2 m2 rest hk2 hv2 hm2
                (by simp only [needV] at hneed; omega)]
            simp [dictFold_nodup hnd]
  · intro k v m rest hk hv hm hneed
    obtain ⟨f, rfl⟩ : ∃ f, fuel = f + 1 :=
      ⟨fuel - 1, by simp only [needM] at hneed; omega⟩
    have hvneed : needV v ≤ f := by simp only [needM] at hneed; omega
    revert hm hneed
    cases m with
    | nil =>
        intro hm hneed
        have hshape : dumpsM (.cons k v .nil) ++ '}' :: rest =
            '"' :: (k.data ++ '"' :: (':' :: (' ' :: (dumpsV v ++ '}' :: rest)))) := by
          show ('"' :: k.data ++ '"' :: ':' :: ' ' :: dumpsV v) ++ '}' :: rest = _
          simp [List.cons_append, List.append_assoc]
        rw [hshape]
        simp only [parseMembers, skipWs_cons_neg (by decide : jsonWs '"' = false)]
        rw [parseStrL_round k.data hk _ _
          (by simp only [List.length_append, List.length_cons]; omega)]
        simp only [skipWs_cons_neg (by decide : jsonWs ':' = false)]
        rw [parseVal_skip (by decide : jsonWs ' ' = true),
          (IH f (by omega)).1 v ('}' :: rest) hv
            (followsOk_of_head (by decide) v rest) hvneed]
        simp only [skipWs_cons_neg (by decide : jsonWs '}' = false)]
    | cons k2 v2 m2 =>
        intro hm hneed
        simp only [wfMembers, Bool.and_eq_true] at hm
        obtain ⟨⟨hk2, hv2⟩, hm2⟩ := hm
        have hshape : dumpsM (.cons k v (.cons k2 v2 m2)) ++ '}' :: rest =
            '"' :: (k.data ++ '"' :: (':' :: (' ' :: (dumpsV v ++
              ',' :: (' ' :: (dumpsM (.cons k2 v2 m2) ++ '}' :: rest)))))) := by
          show ('"' :: k.data ++ '"' :: ':' :: ' ' :: dumpsV v ++
              ',' :: ' ' :: dumpsM (.cons k2 v2 m2)) ++ '}' :: rest = _
          simp [List.cons_append, List.append_assoc]
        rw [hshape]
        simp only [parseMembers, skipWs_cons_neg (by decide : jsonWs '"' = false)]
        rw [parseStrL_round k.data hk _ _
          (by simp only [List.length_append, List.length_cons]; omega)]
        simp only [skipWs_cons_neg (by decide : jsonWs ':' = false)]
        rw [parseVal_skip (by decide : jsonWs ' ' = true),
          (IH f (by omega)).1 v _ hv (followsOk_of_head (by decide) v _) hvneed]
        simp only [skipWs_cons_neg (by decide : jsonWs ',' = false)]
        rw [parseMembers_skip (by decide : jsonWs ' ' = true),
          (IH f (by omega)).2.1 k2 v2 m2 rest hk2 hv2 hm2
            (by simp only [needM] at hneed ⊢; omega)]
        rfl
  · intro v e rest hv he hneed
    obtain ⟨f, rfl⟩ : ∃ f, fuel = f + 1 :=
      ⟨fuel - 1, by simp only [needE] at hneed; omega⟩
    have hvneed : needV v ≤ f := by simp only [needE] at hneed; omega
    revert he hneed
    cases e with
    | nil =>
        intro he hneed
        have hshape : dumpsE (.cons v .nil) ++ ']' :: rest = dumpsV v ++ ']' :: rest := by
          simp [dumpsE]
        rw [hshape]
        simp only [parseElems]
        rw [(IH f (by omega)).1 v (']' :: rest) hv
          (followsOk_of_head (by decide) v rest) hvneed]
        simp only [skipWs_cons_neg (by decide : jsonWs ']' = false)]
    | cons v2 e2 =>
        intro he hneed
        simp only [wfElems, Bool.and_eq_true] at he
        obtain ⟨hv2, he2⟩ := he
        have hshape : dumpsE (.cons v (.cons v2 e2)) ++ ']' :: rest =
            dumpsV v ++ ',' :: (' ' :: (dumpsE (.cons v2 e2) ++ ']' :: rest)) := by
          show (dumpsV v ++ ',' :: ' ' :: dumpsE (.cons v2 e2)) ++ ']' :: rest = _
          simp [List.cons_append, List.append_assoc]
        rw [hshape]
        simp only [parseElems]
        rw [(IH f (by omega)).1 v _ hv (followsOk_of_head (by decide) v _) hvneed]
        simp only [skipWs_cons_neg (by decide : jsonWs ',' = false)]
        have hstep : parseElems f (' ' :: (dumpsE (.cons v2 e2) ++ ']' :: rest)) =
            parseElems f (dumpsE (.cons v2 e2) ++ ']' :: rest) := by
          cases f with
          | zero => rfl
          | succ g => simp only [parseElems, parseVal_skip (by decide : jsonWs ' ' = true)]
        rw [hstep, (IH f (by omega)).2.2 v2 e2 rest hv2 he2
          (by simp only [needE] at hneed ⊢; omega)]
        rfl

theorem intRepr_ne_nil (n : Int) : intRepr n ≠ [] := by
  obtain ⟨c, t, hd, _⟩ := intRepr_head n
  rw [hd]
  exact List.cons_ne_nil c t

/-- The fuel measure is dominated by twice the rendering length, so the
fuel `pyLoads` supplies is always sufficient. -/
theorem needLe :
    (∀ v, wfVal v = true → needV v ≤ 2 * (dumpsV v).length) ∧
    (∀ e, wfElems e = true → needE e ≤ 2 * (dumpsE e).length + 1) ∧
    (∀ m, wfMembers m = true → needM m ≤ 2 * (dumpsM m).length + 1) := by
  have H : JInducHyp (fun v => wfVal v = true → needV v ≤ 2 * (dumpsV v).length)
      (fun e => wfElems e = true → needE e ≤ 2 * (dumpsE e).length + 1)
      (fun m => wfMembers m = true → needM m ≤ 2 * (dumpsM m).length + 1) := by
    refine
      { hnull := ?_, hbool := ?_, hintc := ?_, hfloat := ?_, hstr := ?_,
        harr := ?_, hobj := ?_, henil := ?_, hecons := ?_, hmnil := ?_, hmcons := ?_ }
    · intro _; simp [needV, dumpsV]
    · intro b _; cases b <;> simp [needV, dumpsV]
    · intro n _
      have := intRepr_ne_nil n
      have hlen : 1 ≤ (intRepr n).length := by
        cases hi : intRepr n with
        | nil => exact absurd hi this
        | cons a b => simp
      simp only [needV, dumpsV]
      omega
    · intro l h; exact absurd h (by simp [wfVal])
    · intro s _; simp [needV, dumpsV]; omega
    · intro e ih h
      have hwe : wfElems e = true := h
      have := ih hwe
      simp only [needV, dumpsV, List.length_cons, List.length_append,
        List.length_singleton]
      omega
    · intro m ih h
      have hx : wfVal (.obj m) = true := h
      simp only [wfVal, Bool.and_eq_true] at hx
      have := ih hx.2
      simp only [needV, dumpsV, List.length_cons, List.length_append,
        List.length_singleton]
      omega
    · intro _; simp [needE, dumpsE]
    · intro v r ihv ihr h
      simp only [wfElems, Bool.and_eq_true] at h
      have h1 := ihv h.1
      have h2 := ihr h.2
      revert h2
      cases r with
      | nil => intro _; simp only [needE, dumpsE]; omega
      | cons a b =>
          intro h2
          simp only [needE, dumpsE, List.length_append, List.length_cons]
          simp only [needE] at h2
          omega
    · intro _; simp [needM, dumpsM]
    · intro k v r ihv ihr h
      simp only [wfMembers, Bool.and_eq_true] at h
      have h1 := ihv h.1.2
      have h2 := ihr h.2
      revert h2
      cases r with
      | nil =>
          intro _
          simp only [needM, dumpsM, List.length_append, List.length_cons]
          omega
      | cons k2 v2 m2 =>
          intro h2
          simp only [needM, dumpsM, List.length_append, List.length_cons]
          simp only [needM] at h2
          omega
  exact ⟨mutualInducV H, mutualInducE H, mutualInducM H⟩

theorem followsOk_nil (v : JVal) : followsOk v [] = true := by
  cases v <;> rfl

theorem followsOk_obj (m : JMembers) (r : List Char) :
    followsOk (.obj m) r = true := rfl

/-- `json.loads` of a canonical rendering with material appended: the
rendering parses back, and the call succeeds exactly when the appended
material is whitespace. -/
theorem pyLoads_dumps_append (v : JVal) (prose : String) (hwf : wfVal v = true)
    (hfo : followsOk v prose.data = true) :
    pyLoads (String.mk (dumpsV v) ++ prose) =
      (if skipWs prose.data = [] then some v else none) := by
  have hdata : (String.mk (dumpsV v) ++ prose).data = dumpsV v ++ prose.data :=
    String.data_append _ _
  have hlen : (String.mk (dumpsV v) ++ prose).length =
      (dumpsV v).length + prose.data.length := by
    show (String.mk (dumpsV v) ++ prose).data.length = _
    rw [hdata, List.length_append]
  have hfuel : needV v ≤ 2 * ((String.mk (dumpsV v) ++ prose).length) + 4 := by
    have := needLe.1 v hwf
    rw [hlen]; omega
  show (match parseVal (2 * (String.mk (dumpsV v) ++ prose).length + 4)
      ((String.mk (dumpsV v) ++ prose).data) with
    | some (w, rest) => if skipWs rest = [] then some w else none
    | none => none) = _
  rw [hdata, (parseRound _).1 v prose.data hwf hfo hfuel]

/-- `json.loads` of a canonical rendering alone. -/
theorem pyLoads_dumps (v : JVal) (hwf : wfVal v = true) :
    pyLoads (String.mk (dumpsV v)) = some v := by
  have hdata : (String.mk (dumpsV v)).data = dumpsV v ++ [] := by
    simp
  have hfuel : needV v ≤ 2 * ((String.mk (dumpsV v)).length) + 4 := by
    have := needLe.1 v hwf
    have hl : (String.mk (dumpsV v)).length = (dumpsV v).length := rfl
    omega
  show (match parseVal (2 * (String.mk (dumpsV v)).length + 4)
      ((String.mk (dumpsV v)).data) with
    | some (w, rest) => if skipWs rest = [] then some w else none
    | none => none) = _
  rw [hdata, (parseRound _).1 v [] hwf (followsOk_nil v) hfuel]
  rfl

/-- The greedy `\{.*\}` span of a canonical object rendering with
brace-free material around it is exactly the rendering. -/
theorem braceSpan_wrap (m : JMembers) (pre post : List Char)
    (hpre : pre.all (fun c => !(c = '{')) = true)
    (hpost : post.all (fun c => !(c = '}')) = true) :
    braceSpan (pre ++ (dumpsV (.obj m) ++ post)) = some (dumpsV (.obj m)) := by
  have hshape : dumpsV (.obj m) = '{' :: (dumpsM m ++ ['}']) := rfl
  have hdrop1 : (pre ++ (dumpsV (.obj m) ++ post)).dropWhile (fun c => !(c = '{')) =
      dumpsV (.obj m) ++ post := by
    rw [dropWhile_append_all hpre, hshape, List.cons_append,
      dropWhile_cons_neg (by decide)]
  have hrev : (dumpsV (.obj m) ++ post).reverse =
      post.reverse ++ ('}' :: (dumpsM m).reverse ++ ['{']) := by
    rw [hshape]
    simp [List.reverse_append, List.reverse_cons]
  have hpostrev : post.reverse.all (fun c => !(c = '}')) = true := by
    simpa [List.all_reverse] using hpost
  have hdrop2 : (dumpsV (.obj m) ++ post).reverse.dropWhile (fun c => !(c = '}')) =
      '}' :: (dumpsM m).reverse ++ ['{'] := by
    rw [hrev, dropWhile_append_all hpostrev, List.cons_append,
      dropWhile_cons_neg (by decide)]
  have hc : (('}' :: (dumpsM m).reverse ++ ['{']) : List Char).reverse =
      dumpsV (.obj m) := by
    rw [hshape]
    simp [List.reverse_append, List.reverse_cons]
  simp only [braceSpan, hdrop1, hdrop2, hc]
  rw [hshape]
  rfl

/- ### Recovery-level corollaries -/

theorem recoverLatest_dumps (m : JMembers) (hwf : wfVal (.obj m) = true) :
    recoverLatest (String.mk (dumpsV (.obj m))) = .obj m := by
  simp only [recoverLatest, pyLoads_dumps (.obj m) hwf]

/-- `braceSpan` of a canonical object rendering with `}`-free material
after it. -/
theorem braceSpan_wrap_nil (m : JMembers) (post : List Char)
    (hpost : post.all (fun c => !(c = '}')) = true) :
    braceSpan (dumpsV (.obj m) ++ post) = some (dumpsV (.obj m)) := by
  have h := braceSpan_wrap m [] post rfl hpost
  simpa using h

/-- The staged recovery of the latest revision on a canonical object
rendering followed by `}`-free prose recovers exactly the object:
either the direct parse succeeds (all-whitespace prose) or stage 2's
brace span isolates the rendering. -/
theorem recoverLatest_dumps_prose (m : JMembers) (prose : String)
    (hwf : wfVal (.obj m) = true)
    (hpost : prose.data.all (fun c => !(c = '}')) = true) :
    recoverLatest (String.mk (dumpsV (.obj m)) ++ prose) = .obj m := by
  simp only [recoverLatest,
    pyLoads_dumps_append (.obj m) prose hwf (followsOk_obj m _)]
  by_cases hsk : skipWs prose.data = []
  · rw [if_pos hsk]
  · rw [if_neg hsk]
    have hdata : (String.mk (dumpsV (.obj m)) ++ prose).data =
        dumpsV (.obj m) ++ prose.data := by
      simp [String.data_append]
    rw [hdata, braceSpan_wrap_nil m prose.data hpost]
    simp [pyLoads_dumps (.obj m) hwf]

/-- The staged recovery on a canonical object rendering wrapped in a
`{`-free preamble and a `}`-free tail, when the wrapped text is not
itself valid JSON: stage 2 isolates the rendering. -/
theorem recoverLatest_wrapped (m : JMembers) (pre post : String)
    (hwf : wfVal (.obj m) = true)
    (hpre : pre.data.all (fun c => !(c = '{')) = true)
    (hpost : post.data.all (fun c => !(c = '}')) = true)
    (hfail : pyLoads (pre ++ String.mk (dumpsV (.obj m)) ++ post) = none) :
    recoverLatest (pre ++ String.mk (dumpsV (.obj m)) ++ post) = .obj m := by
  simp only [recoverLatest, hfail]
  have hdata : (pre ++ String.mk (dumpsV (.obj m)) ++ post).data =
      pre.data ++ (dumpsV (.obj m) ++ post.data) := by
    simp [String.data_append, List.append_assoc]
  rw [hdata, braceSpan_wrap m pre.data post.data hpre hpost]
  simp [pyLoads_dumps (.obj m) hwf]

/- ### Record-shape lemmas -/

theorem lookup_setKey (kvs : JMembers) (k : String) (x : JVal) :
    (kvs.setKey k x).lookup k = some x := by
  induction kvs using jmInduc with
  | h0 => simp [JMembers.setKey, JMembers.lookup]
  | h1 k2 v2 r ih =>
      by_cases h : k2 = k
      · simp [JMembers.setKey, JMembers.lookup, h]
      · simp [JMembers.setKey, JMembers.lookup, h, ih]

theorem allNull_lookup {p : JMembers} (h : allNullJM p = true) :
    ∀ k v, p.lookup k = some v → v = .null := by
  induction p using jmInduc with
  | h0 => intro k v hv; exact Option.noConfusion hv
  | h1 k2 v2 r ih =>
      intro k v hv
      simp only [allNullJM, Bool.and_eq_true] at h
      simp only [JMembers.lookup] at hv
      by_cases he : k2 = k
      · rw [if_pos he] at hv
        rw [← Option.some.inj hv]
        cases v2 with
        | null => rfl
        | bool b => exact Bool.noConfusion h.1
        | int n => exact Bool.noConfusion h.1
        | float l => exact Bool.noConfusion h.1
        | str s => exact Bool.noConfusion h.1
        | arr e => exact Bool.noConfusion h.1
        | obj m => exact Bool.noConfusion h.1
      · rw [if_neg he] at hv
        exact ih h.2 k v hv

theorem keys_coerce (result : JVal) :
    ∀ fields : FieldSpecSet,
      (coerce223536 result fields).keys = fields.map Prod.fst := by
  intro fields
  induction fields with
  | nil => rfl
  | cons f rest ih =>
      cases f with
      | mk key conf => simp [coerce223536, JMembers.keys, ih]

theorem keys_mapKeyword (fields : FieldSpecSet) (fv : JVal) :
    ∀ p : JMembers, (mapKeyword fields fv p).keys = p.keys := by
  intro p
  induction p using jmInduc with
  | h0 => rfl
  | h1 k v r ih => simp [mapKeyword, JMembers.keys, ih]

theorem keys_fb (p : JMembers) (raw : String) (fields : FieldSpecSet) :
    (fb223536 p raw fields).keys = p.keys := by
  simp only [fb223536]
  cases hx : first11 (raw.data.filter (fun c => !(isPyWs c))).length
      (raw.data.filter (fun c => !(isPyWs c))) with
  | none => rfl
  | some m0 => exact keys_mapKeyword fields _ p

/- ### Strip / digit-filter lemmas -/

theorem dropWhile_cons_pos {p : Char → Bool} {c : Char} (h : p c = true)
    (l : List Char) : (c :: l).dropWhile p = l.dropWhile p := by
  simp [List.dropWhile, h]

theorem ws_not_dig {c : Char} (hc : isPyWs c = true) : isDig c = false := by
  cases hd : isDig c with
  | false => rfl
  | true =>
      have hf := (digit_facts hd).2.2.2.2.2.2.2.2.2.2
      rw [hf] at hc
      exact Bool.noConfusion hc

theorem filter_dropWhile {p q : Char → Bool} (hq : ∀ c, q c = true → p c = false) :
    ∀ l : List Char, (l.dropWhile q).filter p = l.filter p := by
  intro l
  induction l with
  | nil => rfl
  | cons c t ih =>
      cases hc : q c with
      | true => simp [dropWhile_cons_pos hc, ih, List.filter_cons, hq c hc]
      | false => rw [dropWhile_cons_neg hc]

theorem pyStripL_filter_dig (l : List Char) :
    (pyStripL l).filter isDig = l.filter isDig := by
  simp only [pyStripL]
  rw [List.filter_reverse, filter_dropWhile (fun c hc => ws_not_dig hc),
    List.filter_reverse, filter_dropWhile (fun c hc => ws_not_dig hc),
    List.reverse_reverse]

theorem dropWhile_all_neg {q : Char → Bool} :
    ∀ {l : List Char}, (∀ c ∈ l, q c = false) → l.dropWhile q = l := by
  intro l h
  cases l with
  | nil => rfl
  | cons c t => exact dropWhile_cons_neg (h c (by simp)) t

theorem pyStripL_all_neg {l : List Char} (h : ∀ c ∈ l, isPyWs c = false) :
    pyStripL l = l := by
  rw [pyStripL, dropWhile_all_neg h,
    dropWhile_all_neg (fun c hc => h c (List.mem_reverse.1 hc)),
    List.reverse_reverse]

/-- `int()` on a nonempty all-digit character list. -/
theorem pyIntList_digits : ∀ (ds : List Char), ds ≠ [] → ds.all isDig = true →
    pyIntList ds = some ((digitsVal ds : Nat) : Int) := by
  intro ds hne hall
  have hws : ∀ c ∈ ds, isPyWs c = false := fun c hc =>
    (digit_facts (by simpa using (List.all_eq_true.1 hall c hc))).2.2.2.2.2.2.2.2.2.2
  have hstrip := pyStripL_all_neg hws
  cases ds with
  | nil => exact absurd rfl hne
  | cons c t =>
      have hc : isDig c = true := by
        simp only [List.all_cons, Bool.and_eq_true] at hall
        exact hall.1
      have hcm : c ≠ '-' := digit_ne_of hc (by decide)
      have hcp : c ≠ '+' := digit_ne_of hc (by decide)
      simp only [pyIntList, hstrip, if_neg hcm, if_neg hcp, if_pos hall]

/-- The `"integer"` branch of revision 223536's coercion on a string
value, written out. -/
theorem coerceOne_int_str (s : String) :
    coerceOne "Integer" (.str s) =
      (if ((pyStripL s.data).filter isDig).isEmpty then .null
       else
         match pyIntList ((pyStripL s.data).filter isDig) with
         | some n => .int n
         | none => .null) := by
  simp only [coerceOne]
  rw [if_pos (by decide : pyLower "Integer" = "integer")]

/- ### Error-propagation lemmas for the latest revision -/

theorem mapError_ok {e : Except String JMembers} {f : String → String} {r : JMembers}
    (h : e.mapError f = .ok r) : e = .ok r := by
  cases e with
  | ok a => rw [Except.ok.inj h]
  | error msg => exact Except.noConfusion h

/-- Whenever the latest revision's fallback block returns a record, the
record holds `"vergi_no"` with an integer or `None` value. -/
theorem vergi_fallback_ok {kvs : JMembers} {raw : String} {r : JMembers}
    (h : vergiFallback kvs raw = .ok r) :
    ∃ x, r.lookup "vergi_no" = some x ∧ ((∃ n : Int, x = .int n) ∨ x = .null) := by
  simp only [vergiFallback] at h
  split at h
  next grp hs =>
    split at h
    next n hp =>
      rw [← Except.ok.inj h]
      exact ⟨.int n, lookup_setKey _ _ _, Or.inl ⟨n, rfl⟩⟩
    next hp => exact Except.noConfusion h
  next hs =>
    rw [← Except.ok.inj h]
    exact ⟨.null, lookup_setKey _ _ _, Or.inr rfl⟩

/-- Whenever the latest revision's post-processing of a recovered value
returns a record, the record holds `"vergi_no"` with an integer or
`None` value. -/
theorem vergi_processAfterRecover {result : JVal} {raw : String} {r : JMembers}
    (h : processAfterRecover result raw = .ok r) :
    ∃ x, r.lookup "vergi_no" = some x ∧ ((∃ n : Int, x = .int n) ∨ x = .null) := by
  cases result with
  | obj kvs =>
      simp only [processAfterRecover] at h
      split at h
      next v hlk =>
        by_cases ht : pyTruthy v = true
        · rw [if_pos ht] at h
          rw [← Except.ok.inj h]
          refine ⟨vergiClean v, lookup_setKey _ _ _, ?_⟩
          simp only [vergiClean]
          cases pyIntList ((pyStr v).filter (fun c => !(c = ' '))) with
          | some n => exact Or.inl ⟨n, rfl⟩
          | none => exact Or.inr rfl
        · rw [if_neg ht] at h
          exact vergi_fallback_ok h
      next hlk => exact vergi_fallback_ok h
  | str s =>
      simp only [processAfterRecover] at h
      split at h <;> exact Except.noConfusion h
  | arr e => exact Except.noConfusion h
  | null => exact Except.noConfusion h
  | bool b => exact Except.noConfusion h
  | int n => exact Except.noConfusion h
  | float l => exact Except.noConfusion h

/- ### The claims -/

/-- Claim C1: the fallback runs iff every coerced value is `None`, and
never overrides a value the model produced.  This holds for revision
223536 (stated here): when at least one coerced field value is
non-`None`, the returned record is exactly the coerced record, so the
fallback altered nothing.  The latest revision violates the claim (see
the counterexample): its `vergi_no` fallback fires whenever that one
key is absent or falsy, regardless of the other fields. -/
theorem claim_C1 (raw : String) (fields : FieldSpecSet) (reply : String)
    (h : allNullJM (coerce223536 (recover223536 reply) fields) = false) :
    processReply223536 raw fields reply = coerce223536 (recover223536 reply) fields ∧
    ∀ k v, (coerce223536 (recover223536 reply) fields).lookup k = some v →
      (processReply223536 raw fields reply).lookup k = some v := by
  have he : processReply223536 raw fields reply =
      coerce223536 (recover223536 reply) fields := by
    simp [processReply223536, h]
  exact ⟨he, fun k v hv => by rw [he]; exact hv⟩

/-- Claim C1, witness: a reply giving one string field coerces to a
non-`None` value, and the record returned is the coerced record. -/
theorem claim_C1_witness :
    processReply223536 "" [("a", [("type", "String"), ("name", "A")])]
        "\x7b\"a\": \"x\"\x7d" =
      coerce223536 (recover223536 "\x7b\"a\": \"x\"\x7d")
        [("a", [("type", "String"), ("name", "A")])] :=
  (claim_C1 "" [("a", [("type", "String"), ("name", "A")])]
    "\x7b\"a\": \"x\"\x7d" rfl).1

/-- Claim C1, counterexample (latest revision): the model's reply
recovers to the non-empty mapping `\x7bname: Ali\x7d`, yet the
`vergi_no` fallback still runs on the raw text and adds a field the
model never produced. -/
theorem claim_C1_ce :
    recoverLatest "\x7b\"name\": \"Ali\"\x7d" =
      .obj (.cons "name" (.str "Ali") .nil) ∧
    processReplyLatest (.str "\x7b\"name\": \"Ali\"\x7d") "VERGİ NO: 1234567890" =
      .ok (.cons "name" (.str "Ali") (.cons "vergi_no" (.int 1234567890) .nil)) :=
  ⟨rfl, rfl⟩

/-- Claim C2 (code bug, latest revision): a raw text whose matched
digit run contains a tab makes the fallback's unguarded
`int(vergi_no.group(1).replace(" ", ""))` raise: `replace(" ", "")`
removes only spaces, so the tab survives into `int()` and the
`ValueError` escapes `parse_fields` as a wrapped error instead of
degrading to a `None` field. -/
theorem claim_C2 :
    parseFieldsLatest (.success 200 "\x7b\"response\": \"no json here\"\x7d")
        "x 1\t234567890 y" [] =
      .error ("Ollama API error: invalid literal for int() with base 10: '1\t234567890'") :=
  rfl

/-- Claim C3: the returned record has exactly the declared field keys.
This holds for revision 223536 (stated here): one entry per declared
field, in declaration order, whatever the reply or the fallback did.
The latest revision violates the claim (see the counterexample): it
returns the parsed reply's own keys plus `"vergi_no"`, ignoring the
declared field set. -/
theorem claim_C3 (raw : String) (fields : FieldSpecSet) (reply : String) :
    (processReply223536 raw fields reply).keys = fields.map Prod.fst := by
  simp only [processReply223536]
  by_cases h : allNullJM (coerce223536 (recover223536 reply) fields) = true
  · rw [if_pos h, keys_fb, keys_coerce]
  · rw [if_neg h, keys_coerce]

/-- Claim C3, counterexample (latest revision): with one declared field
`taxId`, the returned record's keys are `foo` (from the reply) and
`vergi_no` (hardwired) — not the declared keys. -/
theorem claim_C3_ce :
    parseFieldsLatest
        (.success 200 "\x7b\"response\": \"\x7b\\\"foo\\\": \\\"bar\\\"\x7d\"\x7d")
        "" [("taxId", [("type", "Integer"), ("name", "Tax ID")])] =
      .ok (.cons "foo" (.str "bar") (.cons "vergi_no" .null .nil)) :=
  rfl

/-- Claim C4: a non-success HTTP status, like a transport failure, is
claimed to surface as the wrapped communication error.  True for
transport failures and timeouts (stated here: the raised exception is
wrapped and nothing else is returned); false for non-success statuses
(see the counterexample), since the code never consults
`response.status_code` and `httpx` does not raise on it. -/
theorem claim_C4 (msg raw : String) (fields : FieldSpecSet) :
    parseFieldsLatest (.transportError msg) raw fields =
      .error ("Ollama API error: " ++ msg) ∧
    ∀ r : JMembers, parseFieldsLatest (.transportError msg) raw fields ≠ .ok r := by
  refine ⟨rfl, ?_⟩
  intro r h
  exact Except.noConfusion h

/-- Claim C4, counterexample (latest revision): an HTTP 500 response
with an error body is processed as if it were a success, and a record
is returned to the caller. -/
theorem claim_C4_ce :
    parseFieldsLatest (.success 500 "\x7b\"error\": \"boom\"\x7d") "" [] =
      .ok (.cons "vergi_no" .null .nil) :=
  rfl

/-- Claim C5: the fallback scans the raw document text and assigns the
found digit run to the keyword-matching declared field.  What the
latest revision actually does (stated here): when the recovered mapping
has no `vergi_no` key, the fallback searches the raw text for
`\b(\d[\d\s]{9,})\b` and writes the space-stripped integer under the
hardwired key `"vergi_no"` — never under a declared field's key.  The
claimed scenario is refuted by the counterexample. -/
theorem claim_C5 (kvs : JMembers) (raw : String)
    (hlk : kvs.lookup "vergi_no" = none) :
    processAfterRecover (.obj kvs) raw = vergiFallback kvs raw ∧
    ∀ grp n, searchVergi raw.data = some grp →
      pyIntList (grp.filter (fun c => !(c = ' '))) = some n →
      vergiFallback kvs raw = .ok (kvs.setKey "vergi_no" (.int n)) := by
  constructor
  · simp only [processAfterRecover, hlk]
  · intro grp n hg hn
    simp only [vergiFallback, hg, hn]

/-- Claim C5, witness: on the spec's scenario text the fallback finds
`1234567890` and stores it under `"vergi_no"`. -/
theorem claim_C5_witness :
    processAfterRecover (.obj .nil) "VERGİ NO: 1234567890" =
      .ok (JMembers.nil.setKey "vergi_no" (.int 1234567890)) := by
  have h := claim_C5 .nil "VERGİ NO: 1234567890" rfl
  rw [h.1]
  exact h.2 "1234567890".data 1234567890 rfl rfl

/-- Claim C5, counterexample (latest revision): the spec's scenario —
raw text `VERGİ NO: 1234567890`, declared field `taxId` (Integer,
display name `Tax ID`), unparsable reply — produces
`\x7bvergi_no: 1234567890\x7d`, not the claimed
`\x7btaxId: 1234567890\x7d`. -/
theorem claim_C5_ce :
    parseFieldsLatest
        (.success 200 "\x7b\"response\": \"Sorry, I cannot help with that.\"\x7d")
        "VERGİ NO: 1234567890"
        [("taxId", [("type", "Integer"), ("name", "Tax ID")])] =
      .ok (.cons "vergi_no" (.int 1234567890) .nil) :=
  rfl

/-- Claim C6: Integer-field coercion keeps whole numbers, digit-strips
textual values, yields `None` on an empty digit remainder, and handles
the spec's two examples.  All of that holds for revision 223536's
`coerceOne` (stated here).  The latest revision violates the claim (see
the counterexample): it has no per-field coercion at all, so a declared
Integer field keeps its textual value. -/
theorem claim_C6 :
    (∀ n : Int, coerceOne "Integer" (.int n) = .int n) ∧
    (∀ s : String, coerceOne "Integer" (.str s) =
      (if (s.data.filter isDig).isEmpty then .null
       else .int ((digitsVal (s.data.filter isDig) : Nat) : Int))) ∧
    coerceOne "Integer" (.str "1 2 3 4 5 6 7 8 9 1 0") = .int 12345678910 ∧
    coerceOne "Integer" (.str "N/A") = .null := by
  refine ⟨fun n => rfl, ?_, rfl, rfl⟩
  intro s
  rw [coerceOne_int_str, pyStripL_filter_dig]
  by_cases he : (s.data.filter isDig).isEmpty = true
  · rw [if_pos he, if_pos he]
  · rw [if_neg he, if_neg he]
    have hne : s.data.filter isDig ≠ [] := by
      intro h0
      rw [h0] at he
      exact he rfl
    have hall : (s.data.filter isDig).all isDig = true := by
      rw [List.all_eq_true]
      intro c hc
      exact List.of_mem_filter hc
    rw [pyIntList_digits _ hne hall]

/-- Claim C6, counterexample (latest revision): a declared Integer
field whose reply value is the spec's example string is returned
untouched as a string — there is no per-field coercion. -/
theorem claim_C6_ce :
    parseFieldsLatest
        (.success 200
          "\x7b\"response\": \"\x7b\\\"amount\\\": \\\"1 2 3 4 5 6 7 8 9 1 0\\\"\x7d\"\x7d")
        "" [("amount", [("type", "Integer"), ("name", "Amount")])] =
      .ok (.cons "amount" (.str "1 2 3 4 5 6 7 8 9 1 0") (.cons "vergi_no" .null .nil)) :=
  rfl

/-- Claim C7: a reply that is a valid JSON object followed by trailing
prose recovers exactly that object.  True as long as the prose contains
no `}` (stated here, over canonical renderings of well-formed objects;
the no-prose parse is included for comparison): stage 2 spans from the
first `{` to the LAST `}`, so a `}` inside the prose (see the
counterexample) makes the spanned substring unparsable and the
recovery degrade to the empty mapping. -/
theorem claim_C7 (m : JMembers) (prose : String)
    (hwf : wfVal (.obj m) = true)
    (hpost : prose.data.all (fun c => !(c = '}')) = true) :
    recoverLatest (String.mk (dumpsV (.obj m)) ++ prose) = .obj m ∧
    recoverLatest (String.mk (dumpsV (.obj m))) = .obj m :=
  ⟨recoverLatest_dumps_prose m prose hwf hpost, recoverLatest_dumps m hwf⟩

/-- Claim C7, witness: the object `\x7ba: 1\x7d` followed by prose
recovers to itself. -/
theorem claim_C7_witness :
    recoverLatest (String.mk (dumpsV (.obj (.cons "a" (.int 1) .nil))) ++ " trailing prose.") =
      .obj (.cons "a" (.int 1) .nil) :=
  (claim_C7 (.cons "a" (.int 1) .nil) " trailing prose." (by decide) (by decide)).1

/-- Claim C7, counterexample (latest revision): trailing prose
containing a `}` defeats stage 2 — the same object alone recovers, but
with the prose ` oops\x7d` the recovery returns the empty mapping. -/
theorem claim_C7_ce :
    recoverLatest "\x7b\"a\": 1\x7d oops\x7d" = .obj .nil ∧
    recoverLatest "\x7b\"a\": 1\x7d" = .obj (.cons "a" (.int 1) .nil) :=
  ⟨rfl, rfl⟩

/-- Claim C8: reply extraction follows the stated precedence and never
errors.  The precedence part holds (stated here: a top-level
`"response"` value wins; otherwise a dict first element of a
`"data"` list supplies its `"response"`; otherwise, `"data"` absent or
its list empty, the reply is `""`).  The `no error is raised` part is
false (see the counterexample): a `"data"` value without `len()`
raises a `TypeError`. -/
theorem claim_C8 (kvs : JMembers) :
    (∀ v, kvs.lookup "response" = some v →
      extractReplyLatest (.obj kvs) = .ok v) ∧
    (kvs.lookup "response" = none →
      ∀ d rest, kvs.lookup "data" = some (.arr (.cons (.obj d) rest)) →
        extractReplyLatest (.obj kvs) = .ok ((d.lookup "response").getD (.str ""))) ∧
    (kvs.lookup "response" = none → kvs.lookup "data" = none →
      extractReplyLatest (.obj kvs) = .ok (.str "")) ∧
    (kvs.lookup "response" = none → kvs.lookup "data" = some (.arr .nil) →
      extractReplyLatest (.obj kvs) = .ok (.str "")) := by
  refine ⟨?_, ?_, ?_, ?_⟩
  · intro v hv
    simp [extractReplyLatest, pyInKey, pySubscriptStr, hv]
  · intro hr d rest hd
    have h1 : pyInKey "response" (.obj kvs) = .ok false := by simp [pyInKey, hr]
    have h2 : pyInKey "data" (.obj kvs) = .ok true := by simp [pyInKey, hd]
    have h3 : pySubscriptStr "data" (.obj kvs) = .ok (.arr (.cons (.obj d) rest)) := by
      simp [pySubscriptStr, hd]
    have h4 : pyLen (.arr (.cons (.obj d) rest)) = .ok (1 + rest.size) := rfl
    have h5 : 1 + rest.size > 0 := by omega
    simp [extractReplyLatest, h1, h2, h3, h4, h5, pySubscriptZero, pyGetResponse]
  · intro hr hd
    have h1 : pyInKey "response" (.obj kvs) = .ok false := by simp [pyInKey, hr]
    have h2 : pyInKey "data" (.obj kvs) = .ok false := by simp [pyInKey, hd]
    simp [extractReplyLatest, h1, h2]
  · intro hr hd
    have h1 : pyInKey "response" (.obj kvs) = .ok false := by simp [pyInKey, hr]
    have h2 : pyInKey "data" (.obj kvs) = .ok true := by simp [pyInKey, hd]
    have h3 : pySubscriptStr "data" (.obj kvs) = .ok (.arr .nil) := by
      simp [pySubscriptStr, hd]
    have h4 : pyLen (.arr .nil) = .ok 0 := rfl
    simp [extractReplyLatest, h1, h2, h3, h4]

/-- Claim C8, witness: a top-level `"response"` value is extracted. -/
theorem claim_C8_witness :
    extractReplyLatest (.obj (.cons "response" (.str "hi") .nil)) = .ok (.str "hi") :=
  (claim_C8 (.cons "response" (.str "hi") .nil)).1 (.str "hi") rfl

/-- Claim C8, counterexample (latest revision): an envelope whose
`"data"` value is a number makes `len()` raise a `TypeError` instead
of falling back to the empty reply. -/
theorem claim_C8_ce :
    extractReplyLatest (.obj (.cons "data" (.int 5) .nil)) =
      .error "object of type 'int' has no len()" :=
  rfl

/-- Claim C9: a reply fenced in brace-free text recovers the same
record as the unfenced reply.  True when the fenced text is not itself
valid JSON (stated here, over canonical renderings of well-formed
objects): stage 2 spans exactly the object.  False in general (see the
counterexample): brace-free fences such as `[` and `]` can make the
whole reply parse as a non-dict JSON value at stage 1, which then
crashes the `vergi_no` block instead of recovering the object. -/
theorem claim_C9 (m : JMembers) (pre post raw : String)
    (hwf : wfVal (.obj m) = true)
    (hpre : pre.data.all (fun c => !(c = '{')) = true)
    (hpost : post.data.all (fun c => !(c = '}')) = true)
    (hfail : pyLoads (pre ++ String.mk (dumpsV (.obj m)) ++ post) = none) :
    processReplyLatest (.str (pre ++ String.mk (dumpsV (.obj m)) ++ post)) raw =
      processReplyLatest (.str (String.mk (dumpsV (.obj m)))) raw := by
  show processAfterRecover (recoverLatest (pre ++ String.mk (dumpsV (.obj m)) ++ post)) raw =
      processAfterRecover (recoverLatest (String.mk (dumpsV (.obj m)))) raw
  rw [recoverLatest_wrapped m pre post hwf hpre hpost hfail,
    recoverLatest_dumps m hwf]

/-- Claim C9, witness: the object `\x7ba: 1\x7d` wrapped in prose
fences processes identically to the bare object. -/
theorem claim_C9_witness :
    processReplyLatest
        (.str ("Result: " ++ String.mk (dumpsV (.obj (.cons "a" (.int 1) .nil))) ++ " done")) "" =
      processReplyLatest (.str (String.mk (dumpsV (.obj (.cons "a" (.int 1) .nil))))) "" :=
  claim_C9 (.cons "a" (.int 1) .nil) "Result: " " done" ""
    (by decide) (by decide) (by decide) (by rfl)

/-- Claim C9, counterexample (latest revision): fencing `\x7ba: 1\x7d`
in the brace-free fences `[` and `]` makes the reply parse as a list,
and the `vergi_no` block raises instead of returning the unfenced
reply's record. -/
theorem claim_C9_ce :
    processReplyLatest (.str "[\x7b\"a\": 1\x7d]") "" =
      .error "list indices must be integers or slices, not str" ∧
    processReplyLatest (.str "\x7b\"a\": 1\x7d") "" =
      .ok (.cons "a" (.int 1) (.cons "vergi_no" .null .nil)) :=
  ⟨rfl, rfl⟩

/-- Claim C10: whenever the latest revision's `parse_fields` returns a
record, the record contains the key `"vergi_no"` with an integer or
`None` value, declared or not: every path out of the clean-up/fallback
block assigns `result["vergi_no"]` one of `int(...)` or `None`. -/
theorem claim_C10 (http : HttpResult) (raw : String) (fields : FieldSpecSet)
    (r : JMembers) (h : parseFieldsLatest http raw fields = .ok r) :
    ∃ x, r.lookup "vergi_no" = some x ∧ ((∃ n : Int, x = .int n) ∨ x = .null) := by
  cases http with
  | transportError msg =>
      simp only [parseFieldsLatest] at h
      exact Except.noConfusion h
  | success st body =>
      simp only [parseFieldsLatest] at h
      split at h
      next hb => exact Except.noConfusion h
      next env hb =>
        split at h
        next e he => exact Except.noConfusion h
        next rt he =>
          have h2 := mapError_ok h
          cases rt with
          | str s => exact vergi_processAfterRecover h2
          | null => exact Except.noConfusion h2
          | bool b => exact Except.noConfusion h2
          | int n => exact Except.noConfusion h2
          | float l => exact Except.noConfusion h2
          | arr e => exact Except.noConfusion h2
          | obj m => exact Except.noConfusion h2

/-- Claim C10, witness: an unparsable reply with an empty raw text
yields the record `\x7bvergi_no: None\x7d`. -/
theorem claim_C10_witness :
    ∃ x, (JMembers.cons "vergi_no" JVal.null JMembers.nil).lookup "vergi_no" = some x ∧
      ((∃ n : Int, x = .int n) ∨ x = .null) :=
  claim_C10 (.success 200 "\x7b\"response\": \"nope\"\x7d") "" []
    (.cons "vergi_no" .null .nil) rfl
